import Mathlib

/-!
# Variable-font viewer: axis model and input controller

A shallow embedding of `src/main.c` (`igcd`, `init_axis`, the default clamp and
the key-down switch of `main`) together with the properties of the axis model
and of the input controller.

Conventions of the embedding.

* A C `int` is an `Int`; every `+`/`-` the source performs on `int` operands
  is followed by `wrap32`, the reduction to the 32-bit two's-complement range.
  The one exception is the counter `count` of `init_axis`, a natural number: it
  counts named styles and cannot leave the `int` range.
* `/` and `%` on `int` are the truncating `Int.tdiv` and `Int.tmod`.
* `FT_Fixed` is FreeType's 16.16 fixed-point number: a signed 32-bit quantity.
  `x >> 16` is the arithmetic shift `x >>> 16`.
* A C array is a list (`mm->axis`, `mm->namedstyle`, `coords`) or a function on
  a `Fin` (the two `bool` arrays of `main`).
-/

namespace VF

/-! ## Machine integers -/

/-- Reduction of an integer to the range of a 32-bit two's-complement `int`. -/
def wrap32 (x : Int) : Int := (x + 2147483648) % 4294967296 - 2147483648

/-- The macro `MIN(a, b) ((a) < (b) ? (a) : (b))`. -/
def MIN (a b : Int) : Int := if a < b then a else b

/-- The macro `MAX(a, b) ((a) > (b) ? (a) : (b))`. -/
def MAX (a b : Int) : Int := if a > b then a else b

/-- The C library `abs` on `int`. -/
def abs32 (x : Int) : Int := wrap32 (if x < 0 then -x else x)

/-- The function `igcd`: `return b ? igcd(b, a % b) : abs(a);`. -/
def igcd (a b : Int) : Int :=
  if b = 0 then abs32 a else igcd b (Int.tmod a b)
termination_by b.natAbs
decreasing_by
  rename_i hb
  have key : (Int.tmod a b).natAbs = a.natAbs % b.natAbs := by
    cases a <;> cases b <;> simp [Int.tmod, Int.natAbs_neg] <;> rfl
  rw [key]
  exact Nat.mod_lt _ (Int.natAbs_pos.mpr hb)

/-! ## FreeType's variation table -/

/-- FreeType's `FT_Fixed`: a 16.16 fixed-point number, 32 signed bits as the
font's `fvar` table stores it. -/
structure FT_Fixed where
  raw : Int
  lo : -2147483648 ≤ raw
  hi : raw < 2147483648

instance : Inhabited FT_Fixed := ⟨⟨0, by decide, by decide⟩⟩

/-- The expression `x >> 16` assigned to an `int`. -/
def FT_Fixed.toInt (x : FT_Fixed) : Int := wrap32 (x.raw >>> (16 : Nat))

/-- The fixed-point number whose integer part is `n` and whose fraction is 0. -/
def FT_Fixed.ofInt (n : Int) (h : -32768 ≤ n ∧ n < 32768) : FT_Fixed :=
  ⟨n * 65536, by omega, by omega⟩

/-- FreeType's `FT_Var_Axis` (the fields `init_axis` reads). -/
structure FT_Var_Axis where
  tag : Nat
  minimum : FT_Fixed
  def_ : FT_Fixed
  maximum : FT_Fixed

/-- FreeType's `FT_Var_Named_Style`: one coordinate per axis. -/
structure FT_Var_Named_Style where
  coords : List FT_Fixed

/-- FreeType's `FT_MM_Var`; `num_axis` and `num_namedstyles` are the lengths. -/
structure FT_MM_Var where
  axis : List FT_Var_Axis
  namedstyle : List FT_Var_Named_Style

/-- The macro `FT_MAKE_TAG(x1, x2, x3, x4)` (and HarfBuzz's `HB_TAG`). -/
def FT_MAKE_TAG (x1 x2 x3 x4 : Nat) : Nat :=
  ((x1 % 256) <<< 24) ||| ((x2 % 256) <<< 16) ||| ((x3 % 256) <<< 8) ||| (x4 % 256)

/-! ## The axis record and `init_axis` -/

/-- The record `Axis` of `main.c`. -/
structure Axis where
  present : Bool
  min : Int
  max : Int
  def_ : Int
  step : Int
deriving DecidableEq, Repr

/-- The loop `for (i = 0; i < mm->num_axis; i++) if (mm->axis[i].tag == tag)`:
the index of the first axis record carrying `tag`, counting from `i`. -/
def locate (tag : Nat) : List FT_Var_Axis → Nat → Option Nat
  | [], _ => none
  | a :: rest, i => if a.tag = tag then some i else locate tag rest (i + 1)

/-- One iteration of the loop over the named styles, on the pair `(gcd, count)`:
`continue` when the coordinate is out of range, else `igcd` with the running
value when `count` is non-zero and the bare distance when it is zero. -/
def sample (mn mx df : Int) (coord : Int) (acc : Int × Nat) : Int × Nat :=
  if coord < mn ∨ coord > mx then acc
  else if acc.2 ≠ 0 then (igcd acc.1 (abs32 (wrap32 (coord - df))), acc.2 + 1)
  else (abs32 (wrap32 (coord - df)), acc.2 + 1)

/-- The loop over the named styles, run on the list of their coordinates. -/
def samples (mn mx df : Int) : List Int → Int × Nat → Int × Nat
  | [], acc => acc
  | coord :: rest, acc => samples mn mx df rest (sample mn mx df coord acc)

/-- The values `mm->namedstyle[n].coords[idx] >> 16`, in the order of `n`. -/
def coordsOf (mm : FT_MM_Var) (idx : Nat) : List Int :=
  mm.namedstyle.map (fun ns => (ns.coords.getD idx default).toInt)

/-- The statement `if (count < 3 || gcd == range) gcd = MAX(1, range / 100);`:
the value of `gcd` right before the test `if (gcd == 0)`. -/
def before_floor (range gcd : Int) (count : Nat) : Int :=
  if count < 3 ∨ gcd = range then MAX 1 (Int.tdiv range 100) else gcd

/-- The tail of `init_axis`: the fallback decision, then `if (gcd == 0) gcd = 1;`. -/
def decide_step (range gcd : Int) (count : Nat) : Int :=
  if before_floor range gcd count = 0 then 1 else before_floor range gcd count

/-- The record `&mm->axis[idx]`. -/
def axisAt (m : FT_MM_Var) (idx : Nat) : FT_Var_Axis :=
  m.axis.getD idx ⟨0, default, default, default⟩

/-- The function `init_axis`, returning the record it fills in. -/
def init_axis (mm : Option FT_MM_Var) (tag : Nat) (fb_min fb_max fb_def : Int) : Axis :=
  match mm with
  | none =>
    { present := false, min := fb_min, max := fb_max, def_ := fb_def,
      step := MAX 1 (Int.tdiv (wrap32 (fb_max - fb_min)) 20) }
  | some m =>
    match locate tag m.axis 0 with
    | none =>
      { present := false, min := fb_min, max := fb_max, def_ := fb_def,
        step := MAX 1 (Int.tdiv (wrap32 (fb_max - fb_min)) 20) }
    | some idx =>
      let a := axisAt m idx
      let mn := a.minimum.toInt
      let mx := a.maximum.toInt
      let df := a.def_.toInt
      let r := samples mn mx df (coordsOf m idx) (0, 0)
      { present := true, min := mn, max := mx, def_ := df,
        step := decide_step (wrap32 (mx - mn)) r.1 r.2 }

/-! ## Feature presence -/

/-- The two HarfBuzz layout queries `has_feature` calls, as answered by a face:
`hb_ot_layout_table_find_script` (table tag, script tag; the script index when
found) and `hb_ot_layout_language_find_feature` (table tag, script index,
language index, feature tag). -/
structure hb_face_t where
  find_script : Nat → Nat → Option Nat
  find_feature : Nat → Nat → Nat → Nat → Bool

/-- HarfBuzz's `HB_OT_TAG_GSUB`. -/
def HB_OT_TAG_GSUB : Nat := FT_MAKE_TAG 'G'.toNat 'S'.toNat 'U'.toNat 'B'.toNat

/-- HarfBuzz's `HB_OT_LAYOUT_DEFAULT_LANGUAGE_INDEX`. -/
def HB_OT_LAYOUT_DEFAULT_LANGUAGE_INDEX : Nat := 65535

/-- The function `has_feature`. -/
def has_feature (face : hb_face_t) (feat_tag : Nat) : Bool :=
  match face.find_script HB_OT_TAG_GSUB (FT_MAKE_TAG 'l'.toNat 'a'.toNat 't'.toNat 'n'.toNat) with
  | none => false
  | some script_index =>
    face.find_feature HB_OT_TAG_GSUB script_index HB_OT_LAYOUT_DEFAULT_LANGUAGE_INDEX feat_tag

/-- The tag probed for `ss_present[i]`:
`HB_TAG('s', 's', '0' + (i / 10), '0' + (i % 10))`. -/
def detect_tag (i : Nat) : Nat :=
  FT_MAKE_TAG 's'.toNat 's'.toNat ('0'.toNat + i / 10) ('0'.toNat + i % 10)

/-- The tag put in the feature list for `ss_flags[i]`:
`HB_TAG('s', 's', '0', '1' + i)`. -/
def feature_tag (i : Nat) : Nat :=
  FT_MAKE_TAG 's'.toNat 's'.toNat '0'.toNat ('1'.toNat + i)

/-! ## The state of `main` and the key-down switch -/

/-- The variables of `main` that the event loop reads and writes. -/
structure State where
  wght : Axis
  wdth : Axis
  slnt : Axis
  ss_present : Fin 20 → Bool
  ss_flags : Fin 9 → Bool

/-- The tag `FT_MAKE_TAG('w', 'g', 'h', 't')`. -/
def TAG_wght : Nat := FT_MAKE_TAG 'w'.toNat 'g'.toNat 'h'.toNat 't'.toNat
/-- The tag `FT_MAKE_TAG('w', 'd', 't', 'h')`. -/
def TAG_wdth : Nat := FT_MAKE_TAG 'w'.toNat 'd'.toNat 't'.toNat 'h'.toNat
/-- The tag `FT_MAKE_TAG('s', 'l', 'n', 't')`. -/
def TAG_slnt : Nat := FT_MAKE_TAG 's'.toNat 'l'.toNat 'n'.toNat 't'.toNat

/-- The start-up part of `main`: the three `init_axis` calls, the default clamp
of `wght` and `wdth`, the detection loop and `bool ss_flags[9] = {0}`. -/
def main_init (mm : Option FT_MM_Var) (face : hb_face_t) : State :=
  let wght := init_axis mm TAG_wght 100 900 400
  let wdth := init_axis mm TAG_wdth 50 100 100
  let slnt := init_axis mm TAG_slnt (-15) 0 0
  { wght := { wght with def_ := MIN (MAX 400 wght.min) wght.max },
    wdth := { wdth with def_ := MIN (MAX 100 wdth.min) wdth.max },
    slnt := slnt,
    ss_present := fun i => has_feature face (detect_tag i.val),
    ss_flags := fun _ => false }

/-- SDL3 key code of Escape. -/
def SDLK_ESCAPE : Nat := 0x1b
/-- SDL3 key code of the digit 1; the digits are consecutive. -/
def SDLK_1 : Nat := 0x31
/-- SDL3 key code of the digit 9. -/
def SDLK_9 : Nat := 0x39
/-- SDL3 key code of A. -/
def SDLK_A : Nat := 0x61
/-- SDL3 key code of D. -/
def SDLK_D : Nat := 0x64
/-- SDL3 key code of E. -/
def SDLK_E : Nat := 0x65
/-- SDL3 key code of Q. -/
def SDLK_Q : Nat := 0x71
/-- SDL3 key code of S. -/
def SDLK_S : Nat := 0x73
/-- SDL3 key code of W. -/
def SDLK_W : Nat := 0x77

/-- The body `ax.def = MIN(ax.def + ax.step, ax.max)`. -/
def Axis.up (ax : Axis) : Axis :=
  { ax with def_ := MIN (wrap32 (ax.def_ + ax.step)) ax.max }

/-- The body `ax.def = MAX(ax.def - ax.step, ax.min)`. -/
def Axis.down (ax : Axis) : Axis :=
  { ax with def_ := MAX (wrap32 (ax.def_ - ax.step)) ax.min }

/-- What one `SDL_EVENT_KEY_DOWN` leaves behind: the variables, the local
`dirty`, and whether control went to `quit`. -/
structure Outcome where
  state : State
  dirty : Bool
  quit : Bool

/-- The `switch (ev.key.key)` of the event loop. -/
def keyDown (s : State) (key : Nat) : Outcome :=
  if key = SDLK_ESCAPE then ⟨s, false, true⟩
  else if key = SDLK_Q then
    if s.wght.present then ⟨{ s with wght := s.wght.up }, true, false⟩ else ⟨s, false, false⟩
  else if key = SDLK_A then
    if s.wght.present then ⟨{ s with wght := s.wght.down }, true, false⟩ else ⟨s, false, false⟩
  else if key = SDLK_W then
    if s.wdth.present then ⟨{ s with wdth := s.wdth.up }, true, false⟩ else ⟨s, false, false⟩
  else if key = SDLK_S then
    if s.wdth.present then ⟨{ s with wdth := s.wdth.down }, true, false⟩ else ⟨s, false, false⟩
  else if key = SDLK_E then
    if s.slnt.present then ⟨{ s with slnt := s.slnt.down }, true, false⟩ else ⟨s, false, false⟩
  else if key = SDLK_D then
    if s.slnt.present then ⟨{ s with slnt := s.slnt.up }, true, false⟩ else ⟨s, false, false⟩
  else if h : SDLK_1 ≤ key ∧ key ≤ SDLK_9 then
    let i : Fin 9 := ⟨key - SDLK_1, by unfold SDLK_1 SDLK_9 at h; unfold SDLK_1; omega⟩
    if s.ss_present (Fin.castLE (by decide) i) then
      ⟨{ s with ss_flags := Function.update s.ss_flags i (!s.ss_flags i) }, true, false⟩
    else ⟨s, false, false⟩
  else ⟨s, false, false⟩

/-- The event loop on a sequence of key-down events: each key is handled by
the switch; `goto quit` ends the loop, `goto render` redraws and re-enters it. -/
def run (s : State) : List Nat → State
  | [] => s
  | key :: rest => if (keyDown s key).quit then (keyDown s key).state
                   else run (keyDown s key).state rest

/-! ## Predicates on axes and states -/

/-- The range invariant of an axis: `min <= def <= max`. -/
def Axis.bounded (a : Axis) : Prop := a.min ≤ a.def_ ∧ a.def_ ≤ a.max

instance (a : Axis) : Decidable a.bounded := by
  unfold Axis.bounded; infer_instance

/-- An axis as start-up leaves it: `min <= def <= max`, `step >= 1`, and one
step beyond either bound is still an `int`. -/
def Axis.ok (a : Axis) : Prop :=
  a.min ≤ a.def_ ∧ a.def_ ≤ a.max ∧ 1 ≤ a.step ∧
    -2147483648 ≤ a.min - a.step ∧ a.max + a.step < 2147483648

instance (a : Axis) : Decidable a.ok := by
  unfold Axis.ok; infer_instance

/-- Both `def + step` and `def - step` are `int`s: neither key body overflows. -/
def Axis.stepFits (a : Axis) : Prop :=
  (-2147483648 ≤ a.def_ + a.step ∧ a.def_ + a.step < 2147483648) ∧
    (-2147483648 ≤ a.def_ - a.step ∧ a.def_ - a.step < 2147483648)

instance (a : Axis) : Decidable a.stepFits := by
  unfold Axis.stepFits; infer_instance

/-- Whether the font has what the key is addressed to: the axis of an axis
key is present, the presence flag of a digit key is set. -/
def addressed (s : State) (key : Nat) : Bool :=
  if key = SDLK_Q ∨ key = SDLK_A then s.wght.present
  else if key = SDLK_W ∨ key = SDLK_S then s.wdth.present
  else if key = SDLK_E ∨ key = SDLK_D then s.slnt.present
  else if h : SDLK_1 ≤ key ∧ key ≤ SDLK_9 then
    s.ss_present ⟨key - SDLK_1, by unfold SDLK_1 SDLK_9 at h; unfold SDLK_1; omega⟩
  else false

/-! ## The step heuristic in the words of the specification -/

/-- The coordinates that lie within `[mn, mx]`, in their order. -/
def inRange (mn mx : Int) (cs : List Int) : List Int :=
  cs.filter (fun c => decide (mn ≤ c ∧ c ≤ mx))

/-- The absolute distance of every coordinate from the default `df`. -/
def distances (df : Int) (cs : List Int) : List Int :=
  cs.map (fun c => |c - df|)

/-- The greatest common divisor of all the numbers of a list (0 for none). -/
def gcdAll (ds : List Int) : Int :=
  ds.foldr (fun d g => (Int.gcd d g : Int)) 0

/-- The list D of the step heuristic for the axis at `idx`: the distances from
the declared default of the named-instance coordinates within the declared
range. -/
def sampleDistances (m : FT_MM_Var) (idx : Nat) : List Int :=
  distances (axisAt m idx).def_.toInt
    (inRange (axisAt m idx).minimum.toInt (axisAt m idx).maximum.toInt (coordsOf m idx))

/-- Whether `init_axis` finds no axis of the tag: the table is missing
(`!mm`) or the search leaves `idx == -1`. -/
def absent (mm : Option FT_MM_Var) (tag : Nat) : Bool :=
  match mm with
  | none => true
  | some m => (locate tag m.axis 0).isNone

/-! ## Sample fonts -/

/-- A named style of a one-axis font, at the whole coordinate `n`. -/
def styleAt (n : Int) (h : -32768 ≤ n ∧ n < 32768) : FT_Var_Named_Style :=
  ⟨[FT_Fixed.ofInt n h]⟩

/-- A font with the single axis `wght` 100..900, default 400, and named
instances at 300, 400 and 700. -/
def font_wght : FT_MM_Var :=
  { axis := [⟨TAG_wght, FT_Fixed.ofInt 100 (by decide), FT_Fixed.ofInt 400 (by decide),
      FT_Fixed.ofInt 900 (by decide)⟩],
    namedstyle := [styleAt 300 (by decide), styleAt 400 (by decide), styleAt 700 (by decide)] }

/-- A font with the single axis `wdth` 50..100, default 100, and one named
instance, at 75. -/
def font_wdth : FT_MM_Var :=
  { axis := [⟨TAG_wdth, FT_Fixed.ofInt 50 (by decide), FT_Fixed.ofInt 100 (by decide),
      FT_Fixed.ofInt 100 (by decide)⟩],
    namedstyle := [styleAt 75 (by decide)] }

/-- A font with the single axis `wght` 400..900 (regular to black), default
400, and one named instance, at 400. -/
def font_bold : FT_MM_Var :=
  { axis := [⟨TAG_wght, FT_Fixed.ofInt 400 (by decide), FT_Fixed.ofInt 400 (by decide),
      FT_Fixed.ofInt 900 (by decide)⟩],
    namedstyle := [styleAt 400 (by decide)] }

/-- A face whose Latin default language system exposes `ss01` and no other
feature. -/
def face_ss01 : hb_face_t :=
  { find_script := fun table script =>
      if table = HB_OT_TAG_GSUB ∧
        script = FT_MAKE_TAG 'l'.toNat 'a'.toNat 't'.toNat 'n'.toNat then some 0 else none,
    find_feature := fun table script_index language_index feat_tag =>
      decide (table = HB_OT_TAG_GSUB ∧ script_index = 0 ∧
        language_index = HB_OT_LAYOUT_DEFAULT_LANGUAGE_INDEX ∧
        feat_tag = FT_MAKE_TAG 's'.toNat 's'.toNat '0'.toNat '1'.toNat) }

/-- A state with the weight axis (100..900, step 100) at its maximum, as five
presses of Q leave it from the default 400; no width or slant axis, no
stylistic set. -/
def state_top : State :=
  { wght := ⟨true, 100, 900, 900, 100⟩,
    wdth := ⟨false, 50, 100, 100, 2⟩,
    slnt := ⟨false, -15, 0, 0, 1⟩,
    ss_present := fun _ => false,
    ss_flags := fun _ => false }

/-- A state with all three axes present and away from their bounds. -/
def state_mid : State :=
  { wght := ⟨true, 100, 900, 400, 100⟩,
    wdth := ⟨true, 50, 100, 75, 1⟩,
    slnt := ⟨true, -15, 0, -5, 1⟩,
    ss_present := fun _ => false,
    ss_flags := fun _ => false }

/-! ## Colour parsing and pixel packing -/

/-- The record `RGB` of `main.c`; a `Uint8` is a `Fin 256`. -/
structure RGB where
  r : Fin 256
  g : Fin 256
  b : Fin 256
deriving DecidableEq, Repr

/-- The C library's `isspace` in the C locale. -/
def isspace (c : Char) : Bool :=
  c.toNat = 32 ∨ (9 ≤ c.toNat ∧ c.toNat ≤ 13)

/-- The value of a hexadecimal digit, if the character is one. -/
def hexval (c : Char) : Option Nat :=
  if '0'.toNat ≤ c.toNat ∧ c.toNat ≤ '9'.toNat then some (c.toNat - '0'.toNat)
  else if 'a'.toNat ≤ c.toNat ∧ c.toNat ≤ 'f'.toNat then some (c.toNat - 'a'.toNat + 10)
  else if 'A'.toNat ≤ c.toNat ∧ c.toNat ≤ 'F'.toNat then some (c.toNat - 'A'.toNat + 10)
  else none

/-- The number read from a run of hexadecimal digits, most significant first,
continuing from `acc`, and what follows the run. -/
def hexrun : List Char → Nat → Nat × List Char
  | [], acc => (acc, [])
  | c :: rest, acc =>
    match hexval c with
    | some d => hexrun rest (acc * 16 + d)
    | none => (acc, c :: rest)

/-- Whether the string starts with a hexadecimal digit. -/
def startsHex (s : List Char) : Bool :=
  match s with
  | [] => false
  | c :: _ => (hexval c).isSome

/-- The C library's `strtol(s, &e, 16)` (ISO C 7.22.1.4) on a string too short
to overflow a `long`: white space is skipped, then an optional sign, then an
optional `0x` or `0X` when a digit follows it, then the digits. The result is
the number and the unread rest `e`; with no digit at all `e` is `s` itself. -/
def strtol16 (s : List Char) : Int × List Char :=
  let s1 := s.dropWhile isspace
  let neg := s1.head? = some '-'
  let s2 := if s1.head? = some '-' ∨ s1.head? = some '+' then s1.tail else s1
  let s3 :=
    match s2 with
    | z :: x :: rest =>
      if z = '0' ∧ (x = 'x' ∨ x = 'X') ∧ startsHex rest = true then rest else s2
    | _ => s2
  if startsHex s3 = true then
    let r := hexrun s3 0
    (if neg then -(r.1 : Int) else (r.1 : Int), r.2)
  else (0, s)

/-- The function `parse_hex_colour` on a NUL-free string: `none` for `false`,
the colour stored through `c` for `true`. `x & 0xff` on a `long` is `x % 256`. -/
def parse_hex_colour (s : List Char) : Option RGB :=
  let s := if s.head? = some '#' then s.tail else s
  if s.length ≠ 6 then none
  else
    let ve := strtol16 s
    if ve.2 ≠ [] then none
    else
      some { r := Fin.ofNat (((ve.1 >>> (16 : Nat)) % 256).toNat),
             g := Fin.ofNat (((ve.1 >>> (8 : Nat)) % 256).toNat),
             b := Fin.ofNat ((ve.1 % 256).toNat) }

/-- The function `px`; each `(Uint32)x << k` is reduced to 32 bits. -/
def px (a : Fin 256) (c : RGB) : Nat :=
  ((a.val <<< 24) % 4294967296) ||| ((c.b.val <<< 16) % 4294967296) |||
    ((c.g.val <<< 8) % 4294967296) ||| c.r.val

/-! ## The feature list and the line loop of the render pass -/

/-- HarfBuzz's `hb_feature_t`. -/
structure hb_feature_t where
  tag : Nat
  value : Nat
  start : Nat
  end_ : Nat
deriving DecidableEq, Repr

/-- The entry `(hb_feature_t){HB_TAG('s', 's', '0', '1' + i), 1, 0, ~0u}`. -/
def feature_entry (i : Fin 9) : hb_feature_t :=
  { tag := feature_tag i.val, value := 1, start := 0, end_ := 4294967295 }

/-- The loop `for (i = 0; i < 9; i++) if (ss_flags[i] && ss_present[i]) f[fc++] = ...`:
the filled prefix `f[0 .. fc)` of the array. -/
def features (ss_flags : Fin 9 → Bool) (ss_present : Fin 20 → Bool) : List hb_feature_t :=
  (List.finRange 9).foldl
    (fun f i =>
      if ss_flags i && ss_present (Fin.castLE (by decide) i) then f ++ [feature_entry i] else f)
    []

/-- The line break `'\n'`. -/
def NL : Char := Char.ofNat 10

/-- The terminator `'\0'`. -/
def NUL : Char := Char.ofNat 0

/-- The loop `for (char *p = text;; p++)` over the bytes from `p` on, with
`cur` the bytes from `line` up to `p`: at a break or at the terminator the
line `cur` is shaped; after the terminator the loop ends. The result is the
list of shaped lines, or `none` when the bytes end without a terminator. -/
def line_loop : List Char → List Char → Option (List (List Char))
  | [], _ => none
  | c :: rest, cur =>
    if c = NL ∨ c = NUL then
      if c = NUL then some [cur]
      else (line_loop rest []).map (fun ls => cur :: ls)
    else line_loop rest (cur ++ [c])

/-- The lines the render pass shapes for a text: the loop run on the copy
`strdup` makes, the text followed by its terminator. -/
def render_lines (text : List Char) : Option (List (List Char)) :=
  line_loop (text ++ [NUL]) []

/-! ## Naming the three axes -/

/-- The three axes of `main`. -/
inductive AxisName where
  | wght
  | wdth
  | slnt
deriving DecidableEq, Repr

/-- The tag `main` passes to `init_axis` for the axis. -/
def AxisName.tag : AxisName → Nat
  | .wght => TAG_wght
  | .wdth => TAG_wdth
  | .slnt => TAG_slnt

/-- The variable of `main` that holds the axis. -/
def AxisName.get : AxisName → State → Axis
  | .wght, s => s.wght
  | .wdth, s => s.wdth
  | .slnt, s => s.slnt

/-- The key whose case runs `def = MIN(def + step, max)` on the axis. -/
def AxisName.upKey : AxisName → Nat
  | .wght => SDLK_Q
  | .wdth => SDLK_W
  | .slnt => SDLK_D

/-- The key whose case runs `def = MAX(def - step, min)` on the axis. -/
def AxisName.downKey : AxisName → Nat
  | .wght => SDLK_A
  | .wdth => SDLK_S
  | .slnt => SDLK_E

/-- The value of `gcd` in `init_axis` right before the test `if (gcd == 0)`,
for the axis record at `idx`. -/
def gcd_before_floor (m : FT_MM_Var) (idx : Nat) : Int :=
  let a := axisAt m idx
  let mn := a.minimum.toInt
  let mx := a.maximum.toInt
  let df := a.def_.toInt
  let r := samples mn mx df (coordsOf m idx) (0, 0)
  before_floor (wrap32 (mx - mn)) r.1 r.2

/-! ## More sample fonts -/

/-- A font with the single axis `wght` 100..900, default 450, and named
instances at 150, 450 and 750. -/
def font_offgrid : FT_MM_Var :=
  { axis := [⟨TAG_wght, FT_Fixed.ofInt 100 (by decide), FT_Fixed.ofInt 450 (by decide),
      FT_Fixed.ofInt 900 (by decide)⟩],
    namedstyle := [styleAt 150 (by decide), styleAt 450 (by decide), styleAt 750 (by decide)] }

/-- A font with an axis `slnt` from -9.5 to 0, default 0, and no named
instance. -/
def font_slant : FT_MM_Var :=
  { axis := [⟨TAG_slnt, ⟨-622592, by decide, by decide⟩, FT_Fixed.ofInt 0 (by decide),
      FT_Fixed.ofInt 0 (by decide)⟩],
    namedstyle := [] }

/-- A font with the axes `wght` 100..900 (default 400) and `slnt` -15..0
(default 0) whose three named instances, at the weights 300, 400 and 700, are
all upright. -/
def font_upright : FT_MM_Var :=
  { axis := [⟨TAG_wght, FT_Fixed.ofInt 100 (by decide), FT_Fixed.ofInt 400 (by decide),
        FT_Fixed.ofInt 900 (by decide)⟩,
      ⟨TAG_slnt, FT_Fixed.ofInt (-15) (by decide), FT_Fixed.ofInt 0 (by decide),
        FT_Fixed.ofInt 0 (by decide)⟩],
    namedstyle := [⟨[FT_Fixed.ofInt 300 (by decide), FT_Fixed.ofInt 0 (by decide)]⟩,
      ⟨[FT_Fixed.ofInt 400 (by decide), FT_Fixed.ofInt 0 (by decide)]⟩,
      ⟨[FT_Fixed.ofInt 700 (by decide), FT_Fixed.ofInt 0 (by decide)]⟩] }

/-- The font `font_wght` with its named instances listed as 700, 300, 400. -/
def font_wght_shuffled : FT_MM_Var :=
  { axis := font_wght.axis,
    namedstyle := [styleAt 700 (by decide), styleAt 300 (by decide), styleAt 400 (by decide)] }

/-- The integer `n` is the fixed-point number `v` rounded down: the greatest
integer not above `v`; it is `v` without its fraction when `v` is not negative
or is whole, and one less than that otherwise. -/
def roundsDown (v : FT_Fixed) (n : Int) : Prop :=
  n * 65536 ≤ v.raw ∧ v.raw < (n + 1) * 65536 ∧
    n = (if 0 ≤ v.raw ∨ v.raw % 65536 = 0 then Int.tdiv v.raw 65536
         else Int.tdiv v.raw 65536 - 1)

/-- The fields of an axis that no key changes are the same in `a` and `b`. -/
def Axis.sameFrame (a b : Axis) : Prop :=
  b.present = a.present ∧ b.min = a.min ∧ b.max = a.max ∧ b.step = a.step

/-- The key moves an axis towards a bound at which its default already is:
an increment key with the default at `max`, or a decrement key with the
default at `min`. -/
def atBound (s : State) (key : Nat) : Prop :=
  (key = SDLK_Q ∧ s.wght.def_ = s.wght.max) ∨ (key = SDLK_A ∧ s.wght.def_ = s.wght.min) ∨
    (key = SDLK_W ∧ s.wdth.def_ = s.wdth.max) ∨ (key = SDLK_S ∧ s.wdth.def_ = s.wdth.min) ∨
    (key = SDLK_D ∧ s.slnt.def_ = s.slnt.max) ∨ (key = SDLK_E ∧ s.slnt.def_ = s.slnt.min)

instance (s : State) (key : Nat) : Decidable (atBound s key) := by
  unfold atBound; infer_instance

/-- A font with the single axis `wght` 300..900, default 300, and named
instances at 300, 500, 700 and 900. -/
def font_light : FT_MM_Var :=
  { axis := [⟨TAG_wght, FT_Fixed.ofInt 300 (by decide), FT_Fixed.ofInt 300 (by decide),
      FT_Fixed.ofInt 900 (by decide)⟩],
    namedstyle := [styleAt 300 (by decide), styleAt 500 (by decide), styleAt 700 (by decide),
      styleAt 900 (by decide)] }

/-! ## Machine arithmetic without overflow -/

theorem wrap32_of_fits {x : Int} (h1 : -2147483648 ≤ x) (h2 : x < 2147483648) :
    wrap32 x = x := by
  unfold wrap32; omega

theorem wrap32_range (x : Int) : -2147483648 ≤ wrap32 x ∧ wrap32 x < 2147483648 := by
  unfold wrap32; omega

theorem abs32_of_fits {x : Int} (h1 : -2147483648 < x) (h2 : x < 2147483648) :
    abs32 x = |x| := by
  unfold abs32
  split
  · rw [wrap32_of_fits (by omega) (by omega), abs_of_neg (by assumption)]
  · rw [wrap32_of_fits (by omega) (by omega), abs_of_nonneg (by omega)]

theorem toInt_eq (x : FT_Fixed) : x.toInt = x.raw / 65536 := by
  have h1 := x.lo
  have h2 := x.hi
  unfold FT_Fixed.toInt
  rw [Int.shiftRight_eq_div_pow]
  norm_num
  apply wrap32_of_fits <;> omega

theorem toInt_range (x : FT_Fixed) : -32768 ≤ x.toInt ∧ x.toInt < 32768 := by
  have h1 := x.lo
  have h2 := x.hi
  rw [toInt_eq]
  omega

theorem toInt_mono {x y : FT_Fixed} (h : x.raw ≤ y.raw) : x.toInt ≤ y.toInt := by
  rw [toInt_eq, toInt_eq]
  omega

theorem toInt_ofInt (n : Int) (h : -32768 ≤ n ∧ n < 32768) :
    (FT_Fixed.ofInt n h).toInt = n := by
  rw [toInt_eq]
  show n * 65536 / 65536 = n
  omega

/-- On non-negative `int` operands `igcd` is the greatest common divisor. -/
theorem igcd_eq_gcd (a b : Int) (ha : 0 ≤ a) (ha2 : a < 2147483648)
    (hb : 0 ≤ b) (hb2 : b < 2147483648) : igcd a b = (Int.gcd a b : Int) := by
  induction a, b using igcd.induct with
  | case1 a =>
    rw [igcd, if_pos rfl, abs32_of_fits (by omega) ha2]
    simp
  | case2 a b hne ih =>
    rw [igcd, if_neg hne]
    have hpos : 0 < b := by omega
    rw [ih hb hb2 (Int.tmod_nonneg b ha) (by have := Int.tmod_lt_of_pos a hpos; omega)]
    obtain ⟨m, rfl⟩ := Int.eq_ofNat_of_zero_le ha
    obtain ⟨n, rfl⟩ := Int.eq_ofNat_of_zero_le hb
    rw [← Int.ofNat_tmod]
    simp only [Int.gcd_natCast_natCast]
    rw [Nat.gcd_comm n (m % n), ← Nat.gcd_rec, Nat.gcd_comm]

theorem gcd_le_bound {g d B : Int} (hg : 0 ≤ g) (hgB : g ≤ B) (hd : 0 ≤ d) (hdB : d ≤ B) :
    (Int.gcd g d : Int) ≤ B := by
  by_cases h0 : g = 0
  · subst h0
    rw [Int.gcd_zero_left]
    omega
  · have h1 : Int.gcd g d ≤ g.natAbs :=
      Nat.gcd_le_left _ (Int.natAbs_pos.mpr h0)
    omega

/-! ## The loop over the named styles -/

theorem inRange_cons_out {mn mx c : Int} (cs : List Int) (h : c < mn ∨ c > mx) :
    inRange mn mx (c :: cs) = inRange mn mx cs := by
  unfold inRange
  rw [List.filter_cons_of_neg]
  simp only [decide_eq_true_eq]
  omega

theorem inRange_cons_in {mn mx c : Int} (cs : List Int) (h : ¬ (c < mn ∨ c > mx)) :
    inRange mn mx (c :: cs) = c :: inRange mn mx cs := by
  unfold inRange
  rw [List.filter_cons_of_pos]
  simp only [decide_eq_true_eq]
  omega

/-- The loop leaves in `gcd` the greatest common divisor of the accumulator and
of all in-range distances, and in `count` the number of in-range samples. -/
theorem samples_spec (mn mx df : Int) (hdf : -32768 ≤ df ∧ df < 32768) :
    ∀ (cs : List Int) (g : Int) (n : Nat),
      (∀ c ∈ cs, -32768 ≤ c ∧ c < 32768) → 0 ≤ g → g ≤ 65535 → (n = 0 → g = 0) →
      samples mn mx df cs (g, n) =
        ((Int.gcd g (gcdAll (distances df (inRange mn mx cs))) : Int),
          n + (inRange mn mx cs).length) := by
  intro cs
  induction cs with
  | nil =>
    intro g n _ hg _ _
    simp [samples, inRange, distances, gcdAll, abs_of_nonneg hg]
  | cons c cs ih =>
    intro g n hcs hg hg2 hn
    have hc := hcs c (List.mem_cons_self _ _)
    have hrest : ∀ x ∈ cs, -32768 ≤ x ∧ x < 32768 :=
      fun x hx => hcs x (List.mem_cons_of_mem _ hx)
    rw [samples]
    by_cases hout : c < mn ∨ c > mx
    · rw [sample, if_pos hout, inRange_cons_out cs hout]
      exact ih g n hrest hg hg2 hn
    · have hd : abs32 (wrap32 (c - df)) = |c - df| := by
        rw [wrap32_of_fits (by omega) (by omega), abs32_of_fits (by omega) (by omega)]
      have hd0 : 0 ≤ |c - df| := abs_nonneg _
      have hd1 : |c - df| ≤ 65535 := by
        rw [abs_le]; omega
      have hstep : sample mn mx df c (g, n) = ((Int.gcd g |c - df| : Int), n + 1) := by
        rw [sample, if_neg hout, hd]
        by_cases hn0 : n = 0
        · have hg0 := hn hn0
          subst hg0
          simp [hn0, abs_of_nonneg hd0]
        · simp only [ne_eq, hn0, not_false_eq_true, if_true]
          rw [igcd_eq_gcd g _ hg (by omega) hd0 (by omega)]
      rw [hstep, inRange_cons_in cs hout,
        ih _ (n + 1) hrest (Int.ofNat_nonneg _) (gcd_le_bound hg hg2 hd0 hd1) (by omega)]
      simp only [distances, gcdAll, List.map_cons, List.foldr_cons, List.length_cons]
      refine Prod.ext ?_ (by simp only; omega)
      simp only
      rw [Int.gcd_assoc]

theorem gcdAll_nonneg (ds : List Int) : 0 ≤ gcdAll ds := by
  cases ds with
  | nil => simp [gcdAll]
  | cons d ds => simp only [gcdAll, List.foldr_cons]; exact Int.ofNat_nonneg _

theorem coordsOf_range (m : FT_MM_Var) (idx : Nat) :
    ∀ c ∈ coordsOf m idx, -32768 ≤ c ∧ c < 32768 := by
  intro c hc
  unfold coordsOf at hc
  obtain ⟨ns, _, rfl⟩ := List.mem_map.mp hc
  exact toInt_range _

/-! ## What `init_axis` returns -/

/-- With no variation table the record holds the fallbacks. -/
theorem init_axis_none (tag : Nat) (fb_min fb_max fb_def : Int) :
    init_axis none tag fb_min fb_max fb_def =
      { present := false, min := fb_min, max := fb_max, def_ := fb_def,
        step := MAX 1 (Int.tdiv (wrap32 (fb_max - fb_min)) 20) } := rfl

/-- With a table that has no axis of the tag the record holds the fallbacks. -/
theorem init_axis_missing (m : FT_MM_Var) (tag : Nat) (fb_min fb_max fb_def : Int)
    (h : locate tag m.axis 0 = none) :
    init_axis (some m) tag fb_min fb_max fb_def =
      { present := false, min := fb_min, max := fb_max, def_ := fb_def,
        step := MAX 1 (Int.tdiv (wrap32 (fb_max - fb_min)) 20) } := by
  simp only [init_axis, h]

/-- For an axis the table declares, the record holds the declared range and
default, and the step is decided from the greatest common divisor of the
in-range distances and from their number. -/
theorem init_axis_present (m : FT_MM_Var) (tag idx : Nat) (fb_min fb_max fb_def : Int)
    (h : locate tag m.axis 0 = some idx) :
    init_axis (some m) tag fb_min fb_max fb_def =
      { present := true,
        min := (axisAt m idx).minimum.toInt,
        max := (axisAt m idx).maximum.toInt,
        def_ := (axisAt m idx).def_.toInt,
        step := decide_step ((axisAt m idx).maximum.toInt - (axisAt m idx).minimum.toInt)
          (gcdAll (sampleDistances m idx)) (sampleDistances m idx).length } := by
  simp only [init_axis, h, sampleDistances, distances, List.length_map]
  generalize axisAt m idx = a
  have h1 := toInt_range a.minimum
  have h2 := toInt_range a.maximum
  have h3 := toInt_range a.def_
  rw [samples_spec _ _ _ h3 _ 0 0 (coordsOf_range m idx) (le_refl _) (by omega) (fun _ => rfl),
    wrap32_of_fits (by omega) (by omega), Int.gcd_zero_left]
  simp only [Nat.zero_add, distances]
  rw [Int.natAbs_of_nonneg (gcdAll_nonneg _)]

theorem MAX_eq_max (a b : Int) : MAX a b = max a b := by
  unfold MAX
  split <;> omega

theorem MIN_eq_min (a b : Int) : MIN a b = min a b := by
  unfold MIN
  split <;> omega

/-- Under `max 1`, C's truncating division by a positive constant agrees with
the flooring one. -/
theorem MAX_one_tdiv (r k : Int) (hk : 0 < k) : MAX 1 (Int.tdiv r k) = max 1 (r / k) := by
  rw [MAX_eq_max]
  by_cases hr : 0 ≤ r
  · rw [Int.tdiv_eq_ediv hr (by omega)]
  · have h1 : Int.tdiv r k = -(Int.tdiv (-r) k) := by
      rw [Int.neg_tdiv, neg_neg]
    have h2 : 0 ≤ Int.tdiv (-r) k := Int.tdiv_nonneg (by omega) (by omega)
    have h3 : r / k < 0 := Int.ediv_neg' (by omega) hk
    omega

theorem decide_step_pos (range g : Int) (n : Nat) (hg : 0 ≤ g) : 1 ≤ decide_step range g n := by
  unfold decide_step before_floor
  rw [MAX_eq_max]
  split_ifs <;> omega

/-! ## The derived step -/

/-- C1. For an axis the table declares, with D the distances from the declared
default of the named-instance coordinates within the declared range and g the
greatest common divisor of D: if D has at least 3 elements, g is not 0 and g is
not `max - min`, then `init_axis` derives the step g. -/
theorem init_axis_step_gcd (m : FT_MM_Var) (tag idx : Nat) (fb_min fb_max fb_def : Int)
    (hloc : locate tag m.axis 0 = some idx)
    (h3 : 3 ≤ (sampleDistances m idx).length)
    (h0 : gcdAll (sampleDistances m idx) ≠ 0)
    (hr : gcdAll (sampleDistances m idx) ≠
      (axisAt m idx).maximum.toInt - (axisAt m idx).minimum.toInt) :
    (init_axis (some m) tag fb_min fb_max fb_def).step = gcdAll (sampleDistances m idx) := by
  rw [init_axis_present m tag idx fb_min fb_max fb_def hloc]
  have hb : before_floor ((axisAt m idx).maximum.toInt - (axisAt m idx).minimum.toInt)
      (gcdAll (sampleDistances m idx)) (sampleDistances m idx).length =
      gcdAll (sampleDistances m idx) := by
    unfold before_floor
    rw [if_neg (by omega)]
  show decide_step _ _ _ = _
  unfold decide_step
  rw [hb, if_neg h0]

/-- C1, on the font with range 100..900, default 400 and named instances at
300, 400 and 700: the step is 100. -/
theorem init_axis_step_gcd_witness :
    locate TAG_wght font_wght.axis 0 = some 0 ∧
      3 ≤ (sampleDistances font_wght 0).length ∧
      gcdAll (sampleDistances font_wght 0) = 100 ∧
      (init_axis (some font_wght) TAG_wght 100 900 400).step = 100 :=
  ⟨by decide, by decide, by decide,
    (init_axis_step_gcd font_wght TAG_wght 0 100 900 400 (by decide) (by decide) (by decide)
      (by decide)).trans (by decide)⟩

/-- C2. For an axis the table declares: if fewer than 3 named-instance
coordinates lie within the declared range, or the greatest common divisor of
their distances from the declared default equals `max - min`, then the derived
step is `max(1, (max - min) / 100)`; the division is C's truncating one, and
under `max(1, _)` the flooring one gives the same number. -/
theorem init_axis_step_fallback (m : FT_MM_Var) (tag idx : Nat) (fb_min fb_max fb_def : Int)
    (hloc : locate tag m.axis 0 = some idx)
    (h : (sampleDistances m idx).length < 3 ∨
      gcdAll (sampleDistances m idx) =
        (axisAt m idx).maximum.toInt - (axisAt m idx).minimum.toInt) :
    (init_axis (some m) tag fb_min fb_max fb_def).step =
        max 1 (Int.tdiv ((axisAt m idx).maximum.toInt - (axisAt m idx).minimum.toInt) 100) ∧
      (init_axis (some m) tag fb_min fb_max fb_def).step =
        max 1 (((axisAt m idx).maximum.toInt - (axisAt m idx).minimum.toInt) / 100) := by
  rw [init_axis_present m tag idx fb_min fb_max fb_def hloc]
  have hb : before_floor ((axisAt m idx).maximum.toInt - (axisAt m idx).minimum.toInt)
      (gcdAll (sampleDistances m idx)) (sampleDistances m idx).length =
      MAX 1 (Int.tdiv ((axisAt m idx).maximum.toInt - (axisAt m idx).minimum.toInt) 100) := by
    unfold before_floor
    rw [if_pos h]
  have hstep : decide_step ((axisAt m idx).maximum.toInt - (axisAt m idx).minimum.toInt)
      (gcdAll (sampleDistances m idx)) (sampleDistances m idx).length =
      MAX 1 (Int.tdiv ((axisAt m idx).maximum.toInt - (axisAt m idx).minimum.toInt) 100) := by
    unfold decide_step
    rw [hb, if_neg]
    rw [MAX_eq_max]
    omega
  refine ⟨?_, ?_⟩
  · show decide_step _ _ _ = _
    rw [hstep, MAX_eq_max]
  · show decide_step _ _ _ = _
    rw [hstep, MAX_one_tdiv _ _ (by decide)]

/-- C2, on the font with range 50..100, default 100 and a single named
instance: the step is 1. -/
theorem init_axis_step_fallback_witness :
    locate TAG_wdth font_wdth.axis 0 = some 0 ∧
      (sampleDistances font_wdth 0).length = 1 ∧
      (init_axis (some font_wdth) TAG_wdth 50 100 100).step = 1 :=
  ⟨by decide, by decide,
    (init_axis_step_fallback font_wdth TAG_wdth 0 50 100 100 (by decide)
      (Or.inl (by decide))).2.trans (by decide)⟩

/-- C3. Whatever the table (missing, without the axis, or with it and any
named instances) and whatever the fallback triple, the step `init_axis`
derives is at least 1. -/
theorem init_axis_step_pos (mm : Option FT_MM_Var) (tag : Nat) (fb_min fb_max fb_def : Int) :
    1 ≤ (init_axis mm tag fb_min fb_max fb_def).step := by
  cases mm with
  | none =>
    rw [init_axis_none, MAX_eq_max]
    exact le_max_left _ _
  | some m =>
    cases hloc : locate tag m.axis 0 with
    | none =>
      rw [init_axis_missing m tag fb_min fb_max fb_def hloc, MAX_eq_max]
      exact le_max_left _ _
    | some idx =>
      rw [init_axis_present m tag idx fb_min fb_max fb_def hloc]
      exact decide_step_pos _ _ _ (gcdAll_nonneg _)

/-- C10. When the table is missing or declares no axis of the tag, and the
fallback range fits an `int`, `init_axis` yields `present = false`, the
fallback `min`, `max` and default, and the step `max(1, (max - min) / 20)`
(truncating or flooring division alike); with the fallbacks of `main` this is
100/900/400 step 40, 50/100/100 step 2 and -15/0/0 step 1. -/
theorem init_axis_absent (mm : Option FT_MM_Var) (tag : Nat) (fb_min fb_max fb_def : Int)
    (habs : absent mm tag = true)
    (hfit : -2147483648 ≤ fb_max - fb_min ∧ fb_max - fb_min < 2147483648) :
    init_axis mm tag fb_min fb_max fb_def =
        { present := false, min := fb_min, max := fb_max, def_ := fb_def,
          step := max 1 ((fb_max - fb_min) / 20) } ∧
      init_axis mm tag fb_min fb_max fb_def =
        { present := false, min := fb_min, max := fb_max, def_ := fb_def,
          step := max 1 (Int.tdiv (fb_max - fb_min) 20) } ∧
      init_axis mm tag 100 900 400 =
        { present := false, min := 100, max := 900, def_ := 400, step := 40 } ∧
      init_axis mm tag 50 100 100 =
        { present := false, min := 50, max := 100, def_ := 100, step := 2 } ∧
      init_axis mm tag (-15) 0 0 =
        { present := false, min := -15, max := 0, def_ := 0, step := 1 } := by
  have key : ∀ a b c : Int, init_axis mm tag a b c =
      { present := false, min := a, max := b, def_ := c,
        step := MAX 1 (Int.tdiv (wrap32 (b - a)) 20) } := by
    intro a b c
    cases mm with
    | none => rfl
    | some m =>
      cases hloc : locate tag m.axis 0 with
      | none => exact init_axis_missing m tag a b c hloc
      | some idx => simp [absent, hloc] at habs
  refine ⟨?_, ?_, ?_, ?_, ?_⟩
  · rw [key, wrap32_of_fits hfit.1 hfit.2, MAX_one_tdiv _ _ (by decide)]
  · rw [key, wrap32_of_fits hfit.1 hfit.2, MAX_eq_max]
  · rw [key]; decide
  · rw [key]; decide
  · rw [key]; decide

/-- C10, with no variation table at all and the weight fallbacks. -/
theorem init_axis_absent_witness :
    absent none TAG_wght = true ∧
      init_axis none TAG_wght 100 900 400 =
        { present := false, min := 100, max := 900, def_ := 400, step := 40 } :=
  ⟨rfl, (init_axis_absent none TAG_wght 100 900 400 rfl (by decide)).2.2.1⟩

/-! ## The range invariant after start-up -/

theorem locate_mem (tag : Nat) (d : FT_Var_Axis) :
    ∀ (l : List FT_Var_Axis) (i idx : Nat), locate tag l i = some idx →
      i ≤ idx ∧ l.getD (idx - i) d ∈ l := by
  intro l
  induction l with
  | nil => intro i idx h; simp [locate] at h
  | cons a rest ih =>
    intro i idx h
    rw [locate] at h
    by_cases ht : a.tag = tag
    · rw [if_pos ht] at h
      cases h
      simp
    · rw [if_neg ht] at h
      obtain ⟨h1, h2⟩ := ih (i + 1) idx h
      refine ⟨by omega, ?_⟩
      have hsub : idx - i = (idx - (i + 1)) + 1 := by omega
      rw [hsub, List.getD_cons_succ]
      exact List.mem_cons_of_mem _ h2

theorem axisAt_mem (m : FT_MM_Var) (tag idx : Nat) (h : locate tag m.axis 0 = some idx) :
    axisAt m idx ∈ m.axis := by
  have := (locate_mem tag ⟨0, default, default, default⟩ m.axis 0 idx h).2
  simpa [axisAt] using this

/-- The record `init_axis` fills in has `min <= def <= max` whenever the
fallbacks have and every declared axis has. -/
theorem init_axis_range (mm : Option FT_MM_Var) (tag : Nat) (fb_min fb_max fb_def : Int)
    (hfb : fb_min ≤ fb_def ∧ fb_def ≤ fb_max)
    (hdecl : ∀ m, mm = some m → ∀ a ∈ m.axis,
      a.minimum.raw ≤ a.def_.raw ∧ a.def_.raw ≤ a.maximum.raw) :
    (init_axis mm tag fb_min fb_max fb_def).min ≤ (init_axis mm tag fb_min fb_max fb_def).def_ ∧
      (init_axis mm tag fb_min fb_max fb_def).def_ ≤
        (init_axis mm tag fb_min fb_max fb_def).max := by
  cases mm with
  | none => rw [init_axis_none]; exact hfb
  | some m =>
    cases hloc : locate tag m.axis 0 with
    | none => rw [init_axis_missing m tag fb_min fb_max fb_def hloc]; exact hfb
    | some idx =>
      rw [init_axis_present m tag idx fb_min fb_max fb_def hloc]
      have h := hdecl m rfl _ (axisAt_mem m tag idx hloc)
      exact ⟨toInt_mono h.1, toInt_mono h.2⟩

theorem clamp_range (k mn mx : Int) (h : mn ≤ mx) :
    mn ≤ MIN (MAX k mn) mx ∧ MIN (MAX k mn) mx ≤ mx := by
  rw [MIN_eq_min, MAX_eq_max]
  omega

/-- C4. After start-up (the three `init_axis` calls with their fallbacks, then
the default clamp of weight and width) each of the three axes has
`min <= default <= max`, for every font whose declared axes each have
`minimum <= default <= maximum`, also when the font has no variation table or
lacks the axis. -/
theorem main_init_range (mm : Option FT_MM_Var) (face : hb_face_t)
    (hdecl : ∀ m, mm = some m → ∀ a ∈ m.axis,
      a.minimum.raw ≤ a.def_.raw ∧ a.def_.raw ≤ a.maximum.raw) :
    (main_init mm face).wght.bounded ∧ (main_init mm face).wdth.bounded ∧
      (main_init mm face).slnt.bounded := by
  have hw := init_axis_range mm TAG_wght 100 900 400 (by decide) hdecl
  have hd := init_axis_range mm TAG_wdth 50 100 100 (by decide) hdecl
  have hs := init_axis_range mm TAG_slnt (-15) 0 0 (by decide) hdecl
  refine ⟨?_, ?_, hs⟩
  · exact clamp_range 400 _ _ (le_trans hw.1 hw.2)
  · exact clamp_range 100 _ _ (le_trans hd.1 hd.2)

/-- C4, on the font with the weight axis 100..900 and default 400. -/
theorem main_init_range_witness :
    (∀ a ∈ font_wght.axis, a.minimum.raw ≤ a.def_.raw ∧ a.def_.raw ≤ a.maximum.raw) ∧
      (main_init (some font_wght) face_ss01).wght.bounded ∧
      (main_init (some font_wght) face_ss01).wdth.bounded ∧
      (main_init (some font_wght) face_ss01).slnt.bounded :=
  ⟨by decide, main_init_range (some font_wght) face_ss01 (by
    intro m hm
    cases hm
    decide)⟩

/-! ## Start-up leaves axes whose steps cannot overflow -/

theorem gcdAll_le (B : Int) (hB : 0 ≤ B) :
    ∀ ds : List Int, (∀ d ∈ ds, 0 ≤ d ∧ d ≤ B) → gcdAll ds ≤ B := by
  intro ds
  induction ds with
  | nil => intro _; simpa [gcdAll] using hB
  | cons d ds ih =>
    intro h
    have hd := h d (List.mem_cons_self _ _)
    have hrest := ih (fun x hx => h x (List.mem_cons_of_mem _ hx))
    simp only [gcdAll, List.foldr_cons]
    exact gcd_le_bound hd.1 hd.2 (gcdAll_nonneg ds) hrest

theorem sampleDistances_range (m : FT_MM_Var) (idx : Nat) :
    ∀ d ∈ sampleDistances m idx, 0 ≤ d ∧ d ≤ 65535 := by
  intro d hd
  unfold sampleDistances distances at hd
  obtain ⟨c, hc, rfl⟩ := List.mem_map.mp hd
  have hc2 : c ∈ coordsOf m idx := by
    unfold inRange at hc
    exact (List.mem_filter.mp hc).1
  have h1 := coordsOf_range m idx c hc2
  have h2 := toInt_range (axisAt m idx).def_
  refine ⟨abs_nonneg _, ?_⟩
  rw [abs_le]
  omega

theorem decide_step_le (range g : Int) (n : Nat) (hr : -65535 ≤ range ∧ range ≤ 65535)
    (hg : 0 ≤ g ∧ g ≤ 65535) : decide_step range g n ≤ 65535 := by
  unfold decide_step before_floor
  rw [MAX_one_tdiv _ _ (by decide)]
  split_ifs <;> omega

/-- The record `init_axis` fills in, for fallbacks that are 16-bit like the
integer part of an `FT_Fixed`: `min` and `max` are 16-bit and the step lies in
1..65535. -/
theorem init_axis_small (mm : Option FT_MM_Var) (tag : Nat) (fb_min fb_max fb_def : Int)
    (hfb : -32768 ≤ fb_min ∧ fb_min ≤ fb_max ∧ fb_max < 32768) :
    -32768 ≤ (init_axis mm tag fb_min fb_max fb_def).min ∧
      (init_axis mm tag fb_min fb_max fb_def).max < 32768 ∧
      1 ≤ (init_axis mm tag fb_min fb_max fb_def).step ∧
      (init_axis mm tag fb_min fb_max fb_def).step ≤ 65535 := by
  have hfall : MAX 1 (Int.tdiv (wrap32 (fb_max - fb_min)) 20) ≤ 65535 := by
    rw [wrap32_of_fits (by omega) (by omega), MAX_one_tdiv _ _ (by decide)]
    omega
  have hpos : 1 ≤ MAX 1 (Int.tdiv (wrap32 (fb_max - fb_min)) 20) := by
    rw [MAX_eq_max]; exact le_max_left _ _
  cases mm with
  | none => rw [init_axis_none]; exact ⟨hfb.1, hfb.2.2, hpos, hfall⟩
  | some m =>
    cases hloc : locate tag m.axis 0 with
    | none =>
      rw [init_axis_missing m tag fb_min fb_max fb_def hloc]
      exact ⟨hfb.1, hfb.2.2, hpos, hfall⟩
    | some idx =>
      rw [init_axis_present m tag idx fb_min fb_max fb_def hloc]
      have h1 := toInt_range (axisAt m idx).minimum
      have h2 := toInt_range (axisAt m idx).maximum
      exact ⟨h1.1, h2.2, decide_step_pos _ _ _ (gcdAll_nonneg _),
        decide_step_le _ _ _ (by omega)
          ⟨gcdAll_nonneg _, gcdAll_le 65535 (by decide) _ (sampleDistances_range m idx)⟩⟩

/-- Every start-up state whose declared axes have `minimum <= default <=
maximum` satisfies `Axis.ok` on its three axes: the premise of the invariant of
the event loop holds of every initialised state. -/
theorem main_init_ok (mm : Option FT_MM_Var) (face : hb_face_t)
    (hdecl : ∀ m, mm = some m → ∀ a ∈ m.axis,
      a.minimum.raw ≤ a.def_.raw ∧ a.def_.raw ≤ a.maximum.raw) :
    (main_init mm face).wght.ok ∧ (main_init mm face).wdth.ok ∧
      (main_init mm face).slnt.ok := by
  have hw := init_axis_range mm TAG_wght 100 900 400 (by decide) hdecl
  have hd := init_axis_range mm TAG_wdth 50 100 100 (by decide) hdecl
  have hs := init_axis_range mm TAG_slnt (-15) 0 0 (by decide) hdecl
  have sw := init_axis_small mm TAG_wght 100 900 400 (by decide)
  have sd := init_axis_small mm TAG_wdth 50 100 100 (by decide)
  have ss := init_axis_small mm TAG_slnt (-15) 0 0 (by decide)
  have cw := clamp_range 400 _ _ (le_trans hw.1 hw.2)
  have cd := clamp_range 100 _ _ (le_trans hd.1 hd.2)
  unfold Axis.ok main_init
  simp only
  refine ⟨⟨cw.1, cw.2, sw.2.2.1, ?_, ?_⟩, ⟨cd.1, cd.2, sd.2.2.1, ?_, ?_⟩,
    ⟨hs.1, hs.2, ss.2.2.1, ?_, ?_⟩⟩ <;> omega

/-! ## The key-down switch -/

theorem up_ok (a : Axis) (h : a.ok) :
    a.up.ok ∧ a.up.min = a.min ∧ a.up.max = a.max := by
  obtain ⟨h1, h2, h3, h4, h5⟩ := h
  refine ⟨?_, rfl, rfl⟩
  unfold Axis.ok Axis.up
  simp only
  rw [wrap32_of_fits (by omega) (by omega), MIN_eq_min]
  omega

theorem down_ok (a : Axis) (h : a.ok) :
    a.down.ok ∧ a.down.min = a.min ∧ a.down.max = a.max := by
  obtain ⟨h1, h2, h3, h4, h5⟩ := h
  refine ⟨?_, rfl, rfl⟩
  unfold Axis.ok Axis.down
  simp only
  rw [wrap32_of_fits (by omega) (by omega), MAX_eq_max]
  omega

theorem keyDown_escape (s : State) : keyDown s SDLK_ESCAPE = ⟨s, false, true⟩ := rfl

theorem keyDown_Q (s : State) : keyDown s SDLK_Q =
    if s.wght.present then ⟨{ s with wght := s.wght.up }, true, false⟩ else ⟨s, false, false⟩ :=
  rfl

theorem keyDown_A (s : State) : keyDown s SDLK_A =
    if s.wght.present then ⟨{ s with wght := s.wght.down }, true, false⟩
    else ⟨s, false, false⟩ :=
  rfl

theorem keyDown_W (s : State) : keyDown s SDLK_W =
    if s.wdth.present then ⟨{ s with wdth := s.wdth.up }, true, false⟩ else ⟨s, false, false⟩ :=
  rfl

theorem keyDown_S (s : State) : keyDown s SDLK_S =
    if s.wdth.present then ⟨{ s with wdth := s.wdth.down }, true, false⟩
    else ⟨s, false, false⟩ :=
  rfl

theorem keyDown_E (s : State) : keyDown s SDLK_E =
    if s.slnt.present then ⟨{ s with slnt := s.slnt.down }, true, false⟩
    else ⟨s, false, false⟩ :=
  rfl

theorem keyDown_D (s : State) : keyDown s SDLK_D =
    if s.slnt.present then ⟨{ s with slnt := s.slnt.up }, true, false⟩ else ⟨s, false, false⟩ :=
  rfl

theorem keyDown_digit (s : State) (i : Fin 9) : keyDown s (SDLK_1 + i.val) =
    if s.ss_present (Fin.castLE (by decide) i) then
      ⟨{ s with ss_flags := Function.update s.ss_flags i (!s.ss_flags i) }, true, false⟩
    else ⟨s, false, false⟩ := by
  have hi := i.isLt
  unfold keyDown
  rw [if_neg (by unfold SDLK_1 SDLK_ESCAPE; omega), if_neg (by unfold SDLK_1 SDLK_Q; omega),
    if_neg (by unfold SDLK_1 SDLK_A; omega), if_neg (by unfold SDLK_1 SDLK_W; omega),
    if_neg (by unfold SDLK_1 SDLK_S; omega), if_neg (by unfold SDLK_1 SDLK_E; omega),
    if_neg (by unfold SDLK_1 SDLK_D; omega),
    dif_pos (by unfold SDLK_1 SDLK_9; omega)]
  have hfin : (⟨SDLK_1 + i.val - SDLK_1, by omega⟩ : Fin 9) = i := Fin.ext (by simp)
  simp only [hfin]

theorem keyDown_other (s : State) (key : Nat)
    (h : key ≠ SDLK_ESCAPE ∧ key ≠ SDLK_Q ∧ key ≠ SDLK_A ∧ key ≠ SDLK_W ∧ key ≠ SDLK_S ∧
      key ≠ SDLK_E ∧ key ≠ SDLK_D ∧ ¬ (SDLK_1 ≤ key ∧ key ≤ SDLK_9)) :
    keyDown s key = ⟨s, false, false⟩ := by
  obtain ⟨h0, h1, h2, h3, h4, h5, h6, h7⟩ := h
  unfold keyDown
  rw [if_neg h0, if_neg h1, if_neg h2, if_neg h3, if_neg h4, if_neg h5, if_neg h6, dif_neg h7]

/-- Every key code is Escape, one of the six axis keys, a digit 1..9, or a key
the switch sends to `default`. -/
theorem key_cases (key : Nat) :
    key = SDLK_ESCAPE ∨ key = SDLK_Q ∨ key = SDLK_A ∨ key = SDLK_W ∨ key = SDLK_S ∨
      key = SDLK_E ∨ key = SDLK_D ∨ (∃ i : Fin 9, key = SDLK_1 + i.val) ∨
      (key ≠ SDLK_ESCAPE ∧ key ≠ SDLK_Q ∧ key ≠ SDLK_A ∧ key ≠ SDLK_W ∧ key ≠ SDLK_S ∧
        key ≠ SDLK_E ∧ key ≠ SDLK_D ∧ ¬ (SDLK_1 ≤ key ∧ key ≤ SDLK_9)) := by
  by_cases hd : SDLK_1 ≤ key ∧ key ≤ SDLK_9
  · right; right; right; right; right; right; right; left
    unfold SDLK_1 SDLK_9 at hd
    exact ⟨⟨key - 0x31, by omega⟩, by unfold SDLK_1; simp only; omega⟩
  · by_cases h0 : key = SDLK_ESCAPE
    · exact Or.inl h0
    by_cases h1 : key = SDLK_Q
    · exact Or.inr (Or.inl h1)
    by_cases h2 : key = SDLK_A
    · exact Or.inr (Or.inr (Or.inl h2))
    by_cases h3 : key = SDLK_W
    · exact Or.inr (Or.inr (Or.inr (Or.inl h3)))
    by_cases h4 : key = SDLK_S
    · exact Or.inr (Or.inr (Or.inr (Or.inr (Or.inl h4))))
    by_cases h5 : key = SDLK_E
    · exact Or.inr (Or.inr (Or.inr (Or.inr (Or.inr (Or.inl h5)))))
    by_cases h6 : key = SDLK_D
    · exact Or.inr (Or.inr (Or.inr (Or.inr (Or.inr (Or.inr (Or.inl h6))))))
    exact Or.inr (Or.inr (Or.inr (Or.inr (Or.inr (Or.inr (Or.inr (Or.inr
      ⟨h0, h1, h2, h3, h4, h5, h6, hd⟩)))))))

/-- A property of each axis that both key bodies preserve is preserved by the
switch. -/
theorem keyDown_axes (Pw Pd Ps : Axis → Prop)
    (hw : ∀ a, Pw a → Pw a.up ∧ Pw a.down) (hd : ∀ a, Pd a → Pd a.up ∧ Pd a.down)
    (hs : ∀ a, Ps a → Ps a.up ∧ Ps a.down) (s : State) (key : Nat)
    (h : Pw s.wght ∧ Pd s.wdth ∧ Ps s.slnt) :
    Pw (keyDown s key).state.wght ∧ Pd (keyDown s key).state.wdth ∧
      Ps (keyDown s key).state.slnt := by
  obtain ⟨h1, h2, h3⟩ := h
  have w := hw _ h1
  have d := hd _ h2
  have t := hs _ h3
  rcases key_cases key with k | k | k | k | k | k | k | ⟨i, k⟩ | k
  · rw [k, keyDown_escape]; exact ⟨h1, h2, h3⟩
  · rw [k, keyDown_Q]; split
    · exact ⟨w.1, h2, h3⟩
    · exact ⟨h1, h2, h3⟩
  · rw [k, keyDown_A]; split
    · exact ⟨w.2, h2, h3⟩
    · exact ⟨h1, h2, h3⟩
  · rw [k, keyDown_W]; split
    · exact ⟨h1, d.1, h3⟩
    · exact ⟨h1, h2, h3⟩
  · rw [k, keyDown_S]; split
    · exact ⟨h1, d.2, h3⟩
    · exact ⟨h1, h2, h3⟩
  · rw [k, keyDown_E]; split
    · exact ⟨h1, h2, t.2⟩
    · exact ⟨h1, h2, h3⟩
  · rw [k, keyDown_D]; split
    · exact ⟨h1, h2, t.1⟩
    · exact ⟨h1, h2, h3⟩
  · rw [k, keyDown_digit]; split
    · exact ⟨h1, h2, h3⟩
    · exact ⟨h1, h2, h3⟩
  · rw [keyDown_other s key k]; exact ⟨h1, h2, h3⟩

/-- The same, along a whole sequence of key-down events. -/
theorem run_axes (Pw Pd Ps : Axis → Prop)
    (hw : ∀ a, Pw a → Pw a.up ∧ Pw a.down) (hd : ∀ a, Pd a → Pd a.up ∧ Pd a.down)
    (hs : ∀ a, Ps a → Ps a.up ∧ Ps a.down) (keys : List Nat) :
    ∀ s : State, Pw s.wght ∧ Pd s.wdth ∧ Ps s.slnt →
      Pw (run s keys).wght ∧ Pd (run s keys).wdth ∧ Ps (run s keys).slnt := by
  induction keys with
  | nil => intro s h; exact h
  | cons key rest ih =>
    intro s h
    have hk := keyDown_axes Pw Pd Ps hw hd hs s key h
    rw [run]
    split
    · exact hk
    · exact ih _ hk

theorem ok_frame (lo hi : Int) (a : Axis) (h : a.ok ∧ a.min = lo ∧ a.max = hi) :
    (a.up.ok ∧ a.up.min = lo ∧ a.up.max = hi) ∧
      (a.down.ok ∧ a.down.min = lo ∧ a.down.max = hi) := by
  obtain ⟨h1, h2, h3⟩ := h
  have u := up_ok a h1
  have d := down_ok a h1
  exact ⟨⟨u.1, u.2.1.trans h2, u.2.2.trans h3⟩, ⟨d.1, d.2.1.trans h2, d.2.2.trans h3⟩⟩

/-- C5. From any state in which each axis has `min <= default <= max` and
`step >= 1` (and, being C `int`s, one step beyond a bound does not overflow),
after every finite sequence of key-down events each axis's default is still
within the `[min, max]` it started with, whatever the step. -/
theorem run_within_bounds (s : State) (keys : List Nat)
    (hw : s.wght.ok) (hd : s.wdth.ok) (hs : s.slnt.ok) :
    (s.wght.min ≤ (run s keys).wght.def_ ∧ (run s keys).wght.def_ ≤ s.wght.max) ∧
      (s.wdth.min ≤ (run s keys).wdth.def_ ∧ (run s keys).wdth.def_ ≤ s.wdth.max) ∧
      (s.slnt.min ≤ (run s keys).slnt.def_ ∧ (run s keys).slnt.def_ ≤ s.slnt.max) := by
  have h := run_axes
    (fun a => a.ok ∧ a.min = s.wght.min ∧ a.max = s.wght.max)
    (fun a => a.ok ∧ a.min = s.wdth.min ∧ a.max = s.wdth.max)
    (fun a => a.ok ∧ a.min = s.slnt.min ∧ a.max = s.slnt.max)
    (ok_frame _ _) (ok_frame _ _) (ok_frame _ _) keys s
    ⟨⟨hw, rfl, rfl⟩, ⟨hd, rfl, rfl⟩, ⟨hs, rfl, rfl⟩⟩
  obtain ⟨⟨a1, a2, a3⟩, ⟨b1, b2, b3⟩, ⟨c1, c2, c3⟩⟩ := h
  unfold Axis.ok at a1 b1 c1
  refine ⟨⟨?_, ?_⟩, ⟨?_, ?_⟩, ⟨?_, ?_⟩⟩ <;> omega

/-- C5, from the state with the weight at its maximum, pressing Q, Q, A, W
and the digit 1: the step 100 does not divide what is left of the range. -/
theorem run_within_bounds_witness :
    state_top.wght.ok ∧ state_top.wdth.ok ∧ state_top.slnt.ok ∧
      (state_top.wght.min ≤
          (run state_top [SDLK_Q, SDLK_Q, SDLK_A, SDLK_W, SDLK_1]).wght.def_ ∧
        (run state_top [SDLK_Q, SDLK_Q, SDLK_A, SDLK_W, SDLK_1]).wght.def_ ≤
          state_top.wght.max) :=
  ⟨by decide, by decide, by decide,
    (run_within_bounds state_top [SDLK_Q, SDLK_Q, SDLK_A, SDLK_W, SDLK_1]
      (by decide) (by decide) (by decide)).1⟩

theorem up_def (a : Axis) (h : a.stepFits) :
    a.up = { a with def_ := min (a.def_ + a.step) a.max } := by
  unfold Axis.up
  rw [wrap32_of_fits h.1.1 h.1.2, MIN_eq_min]

theorem down_def (a : Axis) (h : a.stepFits) :
    a.down = { a with def_ := max (a.def_ - a.step) a.min } := by
  unfold Axis.down
  rw [wrap32_of_fits h.2.1 h.2.2, MAX_eq_max]

/-- C6. For a present axis (with `def + step` and `def - step` within the C
`int` range) one key press moves the default by exactly one clamped
step and changes nothing else: Q sets `wght.def` to `min(def + step, max)`, A
to `max(def - step, min)`; W and S do the same for `wdth`; E sets `slnt.def`
to `max(def - step, min)` and D to `min(def + step, max)`. -/
theorem key_moves_one_step (s : State)
    (hw : s.wght.stepFits) (hd : s.wdth.stepFits) (hs : s.slnt.stepFits) :
    (s.wght.present = true →
        (keyDown s SDLK_Q).state =
          { s with wght := { s.wght with def_ := min (s.wght.def_ + s.wght.step) s.wght.max } } ∧
        (keyDown s SDLK_A).state =
          { s with wght := { s.wght with def_ := max (s.wght.def_ - s.wght.step) s.wght.min } }) ∧
      (s.wdth.present = true →
        (keyDown s SDLK_W).state =
          { s with wdth := { s.wdth with def_ := min (s.wdth.def_ + s.wdth.step) s.wdth.max } } ∧
        (keyDown s SDLK_S).state =
          { s with wdth := { s.wdth with def_ := max (s.wdth.def_ - s.wdth.step) s.wdth.min } }) ∧
      (s.slnt.present = true →
        (keyDown s SDLK_E).state =
          { s with slnt := { s.slnt with def_ := max (s.slnt.def_ - s.slnt.step) s.slnt.min } } ∧
        (keyDown s SDLK_D).state =
          { s with slnt := { s.slnt with def_ := min (s.slnt.def_ + s.slnt.step) s.slnt.max } }) := by
  refine ⟨fun hp => ⟨?_, ?_⟩, fun hp => ⟨?_, ?_⟩, fun hp => ⟨?_, ?_⟩⟩
  · rw [keyDown_Q, if_pos hp, up_def _ hw]
  · rw [keyDown_A, if_pos hp, down_def _ hw]
  · rw [keyDown_W, if_pos hp, up_def _ hd]
  · rw [keyDown_S, if_pos hp, down_def _ hd]
  · rw [keyDown_E, if_pos hp, down_def _ hs]
  · rw [keyDown_D, if_pos hp, up_def _ hs]

/-- C6, on the state with all three axes present: Q takes the weight from 400
to 500. -/
theorem key_moves_one_step_witness :
    state_mid.wght.stepFits ∧ state_mid.wdth.stepFits ∧ state_mid.slnt.stepFits ∧
      state_mid.wght.present = true ∧ (keyDown state_mid SDLK_Q).state.wght.def_ = 500 :=
  ⟨by decide, by decide, by decide, rfl,
    (congrArg (fun t : State => t.wght.def_)
      ((key_moves_one_step state_mid (by decide) (by decide) (by decide)).1 rfl).1).trans
      (by decide)⟩

/-- C8. A key addressed to something the font lacks is a complete no-op: an
axis key (Q/A, W/S, E/D) whose axis has `present = false`, and a digit key
whose presence flag is false, leave every axis and the whole flag array
unchanged and do not set `dirty` (nor leave the loop). -/
theorem absent_key_noop (s : State) (key : Nat)
    (h : ((key = SDLK_Q ∨ key = SDLK_A) ∧ s.wght.present = false) ∨
      ((key = SDLK_W ∨ key = SDLK_S) ∧ s.wdth.present = false) ∨
      ((key = SDLK_E ∨ key = SDLK_D) ∧ s.slnt.present = false) ∨
      (∃ i : Fin 9, key = SDLK_1 + i.val ∧ s.ss_present (Fin.castLE (by decide) i) = false)) :
    keyDown s key = ⟨s, false, false⟩ := by
  rcases h with ⟨k | k, hp⟩ | ⟨k | k, hp⟩ | ⟨k | k, hp⟩ | ⟨i, k, hp⟩
  · rw [k, keyDown_Q, hp]; rfl
  · rw [k, keyDown_A, hp]; rfl
  · rw [k, keyDown_W, hp]; rfl
  · rw [k, keyDown_S, hp]; rfl
  · rw [k, keyDown_E, hp]; rfl
  · rw [k, keyDown_D, hp]; rfl
  · rw [k, keyDown_digit, hp]; rfl

/-- C8, on the state without a width axis: W changes nothing. -/
theorem absent_key_noop_witness :
    state_top.wdth.present = false ∧ keyDown state_top SDLK_W = ⟨state_top, false, false⟩ :=
  ⟨rfl, absent_key_noop state_top SDLK_W (Or.inr (Or.inl ⟨Or.inl rfl, rfl⟩))⟩

theorem addressed_digit (s : State) (i : Fin 9) :
    addressed s (SDLK_1 + i.val) = s.ss_present (Fin.castLE (by decide) i) := by
  have hi := i.isLt
  unfold addressed
  rw [if_neg (by unfold SDLK_1 SDLK_Q SDLK_A; omega),
    if_neg (by unfold SDLK_1 SDLK_W SDLK_S; omega),
    if_neg (by unfold SDLK_1 SDLK_E SDLK_D; omega),
    dif_pos (by unfold SDLK_1 SDLK_9; omega)]
  congr 1
  exact Fin.ext (by simp)

theorem addressed_other (s : State) (key : Nat)
    (h : key ≠ SDLK_ESCAPE ∧ key ≠ SDLK_Q ∧ key ≠ SDLK_A ∧ key ≠ SDLK_W ∧ key ≠ SDLK_S ∧
      key ≠ SDLK_E ∧ key ≠ SDLK_D ∧ ¬ (SDLK_1 ≤ key ∧ key ≤ SDLK_9)) :
    addressed s key = false := by
  obtain ⟨_, h1, h2, h3, h4, h5, h6, h7⟩ := h
  unfold addressed
  rw [if_neg (by tauto), if_neg (by tauto), if_neg (by tauto), dif_neg h7]

/-- C9, refuted: right after start-up on a font whose weight axis is 400..900
the weight sits at its minimum 400; A sets `dirty` although every axis default
and every flag is what it was. -/
theorem dirty_without_change :
    (main_init (some font_bold) face_ss01).wght = ⟨true, 400, 900, 400, 5⟩ ∧
      (keyDown (main_init (some font_bold) face_ss01) SDLK_A).dirty = true ∧
      (keyDown (main_init (some font_bold) face_ss01) SDLK_A).state =
        main_init (some font_bold) face_ss01 :=
  ⟨by decide, rfl, rfl⟩

/-- The switch sets `dirty` exactly when the key is an axis key of a present
axis or a digit key of a present feature; every key press that changes the
state sets `dirty`. -/
theorem dirty_iff_addressed (s : State) (key : Nat) :
    (keyDown s key).dirty = addressed s key ∧
      ((keyDown s key).state ≠ s → (keyDown s key).dirty = true) := by
  rcases key_cases key with k | k | k | k | k | k | k | ⟨i, k⟩ | k
  · subst k
    exact ⟨rfl, fun h => absurd rfl h⟩
  · subst k
    rw [keyDown_Q]
    cases hp : s.wght.present
    · exact ⟨by simp [addressed, hp], fun h => absurd rfl h⟩
    · exact ⟨by simp [addressed, hp], fun _ => rfl⟩
  · subst k
    rw [keyDown_A]
    cases hp : s.wght.present
    · exact ⟨by simp [addressed, hp], fun h => absurd rfl h⟩
    · exact ⟨by simp [addressed, hp], fun _ => rfl⟩
  · subst k
    rw [keyDown_W]
    cases hp : s.wdth.present
    · exact ⟨by simp [addressed, hp, SDLK_W, SDLK_Q, SDLK_A], fun h => absurd rfl h⟩
    · exact ⟨by simp [addressed, hp, SDLK_W, SDLK_Q, SDLK_A], fun _ => rfl⟩
  · subst k
    rw [keyDown_S]
    cases hp : s.wdth.present
    · exact ⟨by simp [addressed, hp, SDLK_S, SDLK_Q, SDLK_A], fun h => absurd rfl h⟩
    · exact ⟨by simp [addressed, hp, SDLK_S, SDLK_Q, SDLK_A], fun _ => rfl⟩
  · subst k
    rw [keyDown_E]
    cases hp : s.slnt.present
    · exact ⟨by simp [addressed, hp, SDLK_E, SDLK_Q, SDLK_A, SDLK_W, SDLK_S],
        fun h => absurd rfl h⟩
    · exact ⟨by simp [addressed, hp, SDLK_E, SDLK_Q, SDLK_A, SDLK_W, SDLK_S], fun _ => rfl⟩
  · subst k
    rw [keyDown_D]
    cases hp : s.slnt.present
    · exact ⟨by simp [addressed, hp, SDLK_D, SDLK_Q, SDLK_A, SDLK_W, SDLK_S],
        fun h => absurd rfl h⟩
    · exact ⟨by simp [addressed, hp, SDLK_D, SDLK_Q, SDLK_A, SDLK_W, SDLK_S], fun _ => rfl⟩
  · subst k
    rw [keyDown_digit, addressed_digit]
    cases hp : s.ss_present (Fin.castLE (by decide) i)
    · exact ⟨by simp, fun h => absurd rfl h⟩
    · exact ⟨by simp, fun _ => rfl⟩
  · rw [keyDown_other s key k, addressed_other s key k]
    exact ⟨rfl, fun h => absurd rfl h⟩

/-! ## Detection of the stylistic sets -/

/-- C7, at a font that exposes `ss01` only: the tag the feature list applies
for flag 0 is `ss01` and the font has it, yet the presence recorded for index
0 is that of `ss00`, so the digit 1 is ignored; index 1 records the presence
of `ss01`, so the digit 2 is accepted and enables `ss02`, which the font
lacks. For every index the probed tag is the applied tag of the index before. -/
theorem digit_key_probes_previous_tag :
    has_feature face_ss01 (feature_tag 0) = true ∧
      (main_init none face_ss01).ss_present 0 = false ∧
      (keyDown (main_init none face_ss01) SDLK_1).dirty = false ∧
      (keyDown (main_init none face_ss01) SDLK_1).state.ss_flags 0 = false ∧
      has_feature face_ss01 (feature_tag 1) = false ∧
      (main_init none face_ss01).ss_present 1 = true ∧
      (keyDown (main_init none face_ss01) (SDLK_1 + 1)).dirty = true ∧
      (keyDown (main_init none face_ss01) (SDLK_1 + 1)).state.ss_flags 1 = true ∧
      (∀ i : Fin 9, detect_tag i.val ≠ feature_tag i.val ∧
        detect_tag (i.val + 1) = feature_tag i.val) := by
  refine ⟨by decide, by decide, by decide, by decide, by decide, by decide, by decide,
    by decide, by decide⟩

/-! ## The default clamp -/

/-- C11. After start-up, when the weight axis has `min <= max` its default is
400 if 400 lies in `[min, max]`, `min` if 400 is below `min` and `max` if 400
is above `max`; the same holds of the width axis with 100. -/
theorem main_init_default (mm : Option FT_MM_Var) (face : hb_face_t) :
    ((main_init mm face).wght.min ≤ (main_init mm face).wght.max →
      ((main_init mm face).wght.min ≤ 400 ∧ 400 ≤ (main_init mm face).wght.max →
          (main_init mm face).wght.def_ = 400) ∧
        (400 < (main_init mm face).wght.min →
          (main_init mm face).wght.def_ = (main_init mm face).wght.min) ∧
        ((main_init mm face).wght.max < 400 →
          (main_init mm face).wght.def_ = (main_init mm face).wght.max)) ∧
      ((main_init mm face).wdth.min ≤ (main_init mm face).wdth.max →
        ((main_init mm face).wdth.min ≤ 100 ∧ 100 ≤ (main_init mm face).wdth.max →
            (main_init mm face).wdth.def_ = 100) ∧
          (100 < (main_init mm face).wdth.min →
            (main_init mm face).wdth.def_ = (main_init mm face).wdth.min) ∧
          ((main_init mm face).wdth.max < 100 →
            (main_init mm face).wdth.def_ = (main_init mm face).wdth.max)) := by
  have key : ∀ k mn mx : Int, mn ≤ mx →
      (mn ≤ k ∧ k ≤ mx → MIN (MAX k mn) mx = k) ∧ (k < mn → MIN (MAX k mn) mx = mn) ∧
        (mx < k → MIN (MAX k mn) mx = mx) := by
    intro k mn mx h
    rw [MIN_eq_min, MAX_eq_max]
    refine ⟨fun _ => ?_, fun _ => ?_, fun _ => ?_⟩ <;> omega
  exact ⟨key 400 _ _, key 100 _ _⟩

/-- C11, on the font with the weight axis 400..900: the default is 400; the
absent width axis 50..100 gets 100. -/
theorem main_init_default_witness :
    (main_init (some font_bold) face_ss01).wght.min ≤
        (main_init (some font_bold) face_ss01).wght.max ∧
      (main_init (some font_bold) face_ss01).wght.def_ = 400 ∧
      (main_init (some font_bold) face_ss01).wdth.def_ = 100 :=
  ⟨by decide,
    ((main_init_default (some font_bold) face_ss01).1 (by decide)).1 (by decide),
    ((main_init_default (some font_bold) face_ss01).2 (by decide)).1 (by decide)⟩

/-! ## Fixed-point values are rounded down -/

theorem toInt_roundsDown (v : FT_Fixed) : roundsDown v v.toInt := by
  have h1 := v.lo
  have h2 := v.hi
  unfold roundsDown
  rw [toInt_eq]
  refine ⟨by omega, by omega, ?_⟩
  by_cases h0 : 0 ≤ v.raw
  · rw [if_pos (Or.inl h0), Int.tdiv_eq_ediv h0 (by decide)]
  · have hneg : Int.tdiv v.raw 65536 = -((-v.raw) / 65536) := by
      have h3 : Int.tdiv v.raw 65536 = -(Int.tdiv (-v.raw) 65536) := by
        rw [Int.neg_tdiv, neg_neg]
      rw [h3, Int.tdiv_eq_ediv (by omega) (by decide)]
    by_cases hz : v.raw % 65536 = 0
    · rw [if_pos (Or.inr hz), hneg]
      omega
    · rw [if_neg (by intro h; rcases h with h | h; exact h0 h; exact hz h), hneg]
      omega

/-- C13, refuted: a slant minimum of -9.5 (the 16.16 value -622592) is stored
as -10, not as -9, which is -9.5 without its fraction. -/
theorem slant_minimum_not_truncated :
    (axisAt font_slant 0).minimum.raw = -622592 ∧
      (init_axis (some font_slant) TAG_slnt (-15) 0 0).min = -10 ∧
      Int.tdiv (-622592) 65536 = -9 :=
  ⟨by decide, by decide, by decide⟩

/-- C13, amended. For an axis the table declares, the `min`, `max` and default
that `init_axis` stores are the declared 16.16 values rounded down to an
integer (`v >> 16`): equal to `v` without its fraction when `v` is not negative
or is whole, and one less than that when `v` is negative with a fraction. -/
theorem init_axis_rounds_down (m : FT_MM_Var) (tag idx : Nat) (fb_min fb_max fb_def : Int)
    (hloc : locate tag m.axis 0 = some idx) :
    roundsDown (axisAt m idx).minimum (init_axis (some m) tag fb_min fb_max fb_def).min ∧
      roundsDown (axisAt m idx).maximum (init_axis (some m) tag fb_min fb_max fb_def).max ∧
      roundsDown (axisAt m idx).def_ (init_axis (some m) tag fb_min fb_max fb_def).def_ := by
  rw [init_axis_present m tag idx fb_min fb_max fb_def hloc]
  exact ⟨toInt_roundsDown _, toInt_roundsDown _, toInt_roundsDown _⟩

/-- C13 amended, on the font whose slant runs from -9.5 to 0. -/
theorem init_axis_rounds_down_witness :
    locate TAG_slnt font_slant.axis 0 = some 0 ∧
      roundsDown (axisAt font_slant 0).minimum
        (init_axis (some font_slant) TAG_slnt (-15) 0 0).min :=
  ⟨by decide, (init_axis_rounds_down font_slant TAG_slnt 0 (-15) 0 0 (by decide)).1⟩

/-! ## What a key leaves alone -/

theorem sameFrame_refl (a : Axis) : a.sameFrame a := ⟨rfl, rfl, rfl, rfl⟩

theorem sameFrame_up (a : Axis) : a.sameFrame a.up := ⟨rfl, rfl, rfl, rfl⟩

theorem sameFrame_down (a : Axis) : a.sameFrame a.down := ⟨rfl, rfl, rfl, rfl⟩

/-- The state after a key-down event is the old state, or the old state with
one axis moved by the key's body, or the old state with one flag inverted. -/
theorem keyDown_state_cases (s : State) (key : Nat) :
    (keyDown s key).state = s ∨
      ((key = SDLK_Q ∨ key = SDLK_A) ∧
        ((keyDown s key).state = { s with wght := s.wght.up } ∨
          (keyDown s key).state = { s with wght := s.wght.down })) ∨
      ((key = SDLK_W ∨ key = SDLK_S) ∧
        ((keyDown s key).state = { s with wdth := s.wdth.up } ∨
          (keyDown s key).state = { s with wdth := s.wdth.down })) ∨
      ((key = SDLK_E ∨ key = SDLK_D) ∧
        ((keyDown s key).state = { s with slnt := s.slnt.up } ∨
          (keyDown s key).state = { s with slnt := s.slnt.down })) ∨
      (∃ i : Fin 9, key = SDLK_1 + i.val ∧
        (keyDown s key).state =
          { s with ss_flags := Function.update s.ss_flags i (!s.ss_flags i) }) := by
  rcases key_cases key with k | k | k | k | k | k | k | ⟨i, k⟩ | k
  · left; rw [k, keyDown_escape]
  · rw [k, keyDown_Q]; split
    · exact Or.inr (Or.inl ⟨Or.inl rfl, Or.inl rfl⟩)
    · exact Or.inl rfl
  · rw [k, keyDown_A]; split
    · exact Or.inr (Or.inl ⟨Or.inr rfl, Or.inr rfl⟩)
    · exact Or.inl rfl
  · rw [k, keyDown_W]; split
    · exact Or.inr (Or.inr (Or.inl ⟨Or.inl rfl, Or.inl rfl⟩))
    · exact Or.inl rfl
  · rw [k, keyDown_S]; split
    · exact Or.inr (Or.inr (Or.inl ⟨Or.inr rfl, Or.inr rfl⟩))
    · exact Or.inl rfl
  · rw [k, keyDown_E]; split
    · exact Or.inr (Or.inr (Or.inr (Or.inl ⟨Or.inl rfl, Or.inr rfl⟩)))
    · exact Or.inl rfl
  · rw [k, keyDown_D]; split
    · exact Or.inr (Or.inr (Or.inr (Or.inl ⟨Or.inr rfl, Or.inl rfl⟩)))
    · exact Or.inl rfl
  · rw [k, keyDown_digit]; split
    · exact Or.inr (Or.inr (Or.inr (Or.inr ⟨i, rfl, rfl⟩)))
    · exact Or.inl rfl
  · left; rw [keyDown_other s key k]

theorem digit_key_ne (i : Fin 9) :
    SDLK_1 + i.val ≠ SDLK_Q ∧ SDLK_1 + i.val ≠ SDLK_A ∧ SDLK_1 + i.val ≠ SDLK_W ∧
      SDLK_1 + i.val ≠ SDLK_S ∧ SDLK_1 + i.val ≠ SDLK_E ∧ SDLK_1 + i.val ≠ SDLK_D := by
  have hi := i.isLt
  unfold SDLK_1 SDLK_Q SDLK_A SDLK_W SDLK_S SDLK_E SDLK_D
  omega

/-- C14. A key-down event leaves `present`, `min`, `max` and `step` of every
axis (and the presence array) as they were; an axis key leaves the other two
axes and every enabled flag unchanged; the digit key n leaves every axis and
every enabled flag other than flag n-1 unchanged. -/
theorem key_frame (s : State) (key : Nat) :
    (s.wght.sameFrame (keyDown s key).state.wght ∧
        s.wdth.sameFrame (keyDown s key).state.wdth ∧
        s.slnt.sameFrame (keyDown s key).state.slnt ∧
        (keyDown s key).state.ss_present = s.ss_present) ∧
      (key = SDLK_Q ∨ key = SDLK_A →
        (keyDown s key).state.wdth = s.wdth ∧ (keyDown s key).state.slnt = s.slnt ∧
          (keyDown s key).state.ss_flags = s.ss_flags) ∧
      (key = SDLK_W ∨ key = SDLK_S →
        (keyDown s key).state.wght = s.wght ∧ (keyDown s key).state.slnt = s.slnt ∧
          (keyDown s key).state.ss_flags = s.ss_flags) ∧
      (key = SDLK_E ∨ key = SDLK_D →
        (keyDown s key).state.wght = s.wght ∧ (keyDown s key).state.wdth = s.wdth ∧
          (keyDown s key).state.ss_flags = s.ss_flags) ∧
      (∀ i : Fin 9, key = SDLK_1 + i.val →
        (keyDown s key).state.wght = s.wght ∧ (keyDown s key).state.wdth = s.wdth ∧
          (keyDown s key).state.slnt = s.slnt ∧
          ∀ j : Fin 9, j ≠ i → (keyDown s key).state.ss_flags j = s.ss_flags j) := by
  rcases keyDown_state_cases s key with h | ⟨k, h | h⟩ | ⟨k, h | h⟩ | ⟨k, h | h⟩ | ⟨i, k, h⟩
  · rw [h]
    exact ⟨⟨sameFrame_refl _, sameFrame_refl _, sameFrame_refl _, rfl⟩,
      fun _ => ⟨rfl, rfl, rfl⟩, fun _ => ⟨rfl, rfl, rfl⟩, fun _ => ⟨rfl, rfl, rfl⟩,
      fun _ _ => ⟨rfl, rfl, rfl, fun _ _ => rfl⟩⟩
  · rw [h]
    refine ⟨⟨sameFrame_up _, sameFrame_refl _, sameFrame_refl _, rfl⟩, fun _ => ⟨rfl, rfl, rfl⟩, fun k2 => ?_, fun k2 => ?_, fun i k2 => ?_⟩
    · exfalso
      simp only [SDLK_Q, SDLK_A, SDLK_W, SDLK_S, SDLK_E, SDLK_D] at k k2
      omega
    · exfalso
      simp only [SDLK_Q, SDLK_A, SDLK_W, SDLK_S, SDLK_E, SDLK_D] at k k2
      omega
    · exfalso
      have hi := i.isLt
      simp only [SDLK_1, SDLK_Q, SDLK_A, SDLK_W, SDLK_S, SDLK_E, SDLK_D] at k k2
      omega
  · rw [h]
    refine ⟨⟨sameFrame_down _, sameFrame_refl _, sameFrame_refl _, rfl⟩, fun _ => ⟨rfl, rfl, rfl⟩, fun k2 => ?_, fun k2 => ?_, fun i k2 => ?_⟩
    · exfalso
      simp only [SDLK_Q, SDLK_A, SDLK_W, SDLK_S, SDLK_E, SDLK_D] at k k2
      omega
    · exfalso
      simp only [SDLK_Q, SDLK_A, SDLK_W, SDLK_S, SDLK_E, SDLK_D] at k k2
      omega
    · exfalso
      have hi := i.isLt
      simp only [SDLK_1, SDLK_Q, SDLK_A, SDLK_W, SDLK_S, SDLK_E, SDLK_D] at k k2
      omega
  · rw [h]
    refine ⟨⟨sameFrame_refl _, sameFrame_up _, sameFrame_refl _, rfl⟩, fun k2 => ?_, fun _ => ⟨rfl, rfl, rfl⟩, fun k2 => ?_, fun i k2 => ?_⟩
    · exfalso
      simp only [SDLK_Q, SDLK_A, SDLK_W, SDLK_S, SDLK_E, SDLK_D] at k k2
      omega
    · exfalso
      simp only [SDLK_Q, SDLK_A, SDLK_W, SDLK_S, SDLK_E, SDLK_D] at k k2
      omega
    · exfalso
      have hi := i.isLt
      simp only [SDLK_1, SDLK_Q, SDLK_A, SDLK_W, SDLK_S, SDLK_E, SDLK_D] at k k2
      omega
  · rw [h]
    refine ⟨⟨sameFrame_refl _, sameFrame_down _, sameFrame_refl _, rfl⟩, fun k2 => ?_, fun _ => ⟨rfl, rfl, rfl⟩, fun k2 => ?_, fun i k2 => ?_⟩
    · exfalso
      simp only [SDLK_Q, SDLK_A, SDLK_W, SDLK_S, SDLK_E, SDLK_D] at k k2
      omega
    · exfalso
      simp only [SDLK_Q, SDLK_A, SDLK_W, SDLK_S, SDLK_E, SDLK_D] at k k2
      omega
    · exfalso
      have hi := i.isLt
      simp only [SDLK_1, SDLK_Q, SDLK_A, SDLK_W, SDLK_S, SDLK_E, SDLK_D] at k k2
      omega
  · rw [h]
    refine ⟨⟨sameFrame_refl _, sameFrame_refl _, sameFrame_up _, rfl⟩, fun k2 => ?_, fun k2 => ?_, fun _ => ⟨rfl, rfl, rfl⟩, fun i k2 => ?_⟩
    · exfalso
      simp only [SDLK_Q, SDLK_A, SDLK_W, SDLK_S, SDLK_E, SDLK_D] at k k2
      omega
    · exfalso
      simp only [SDLK_Q, SDLK_A, SDLK_W, SDLK_S, SDLK_E, SDLK_D] at k k2
      omega
    · exfalso
      have hi := i.isLt
      simp only [SDLK_1, SDLK_Q, SDLK_A, SDLK_W, SDLK_S, SDLK_E, SDLK_D] at k k2
      omega
  · rw [h]
    refine ⟨⟨sameFrame_refl _, sameFrame_refl _, sameFrame_down _, rfl⟩, fun k2 => ?_, fun k2 => ?_, fun _ => ⟨rfl, rfl, rfl⟩, fun i k2 => ?_⟩
    · exfalso
      simp only [SDLK_Q, SDLK_A, SDLK_W, SDLK_S, SDLK_E, SDLK_D] at k k2
      omega
    · exfalso
      simp only [SDLK_Q, SDLK_A, SDLK_W, SDLK_S, SDLK_E, SDLK_D] at k k2
      omega
    · exfalso
      have hi := i.isLt
      simp only [SDLK_1, SDLK_Q, SDLK_A, SDLK_W, SDLK_S, SDLK_E, SDLK_D] at k k2
      omega
  · rw [h]
    have hi := i.isLt
    refine ⟨⟨sameFrame_refl _, sameFrame_refl _, sameFrame_refl _, rfl⟩,
      fun k2 => ?_, fun k2 => ?_, fun k2 => ?_, fun i2 k2 => ⟨rfl, rfl, rfl, fun j hj => ?_⟩⟩
    · exfalso
      simp only [SDLK_1, SDLK_Q, SDLK_A] at k k2
      omega
    · exfalso
      simp only [SDLK_1, SDLK_W, SDLK_S] at k k2
      omega
    · exfalso
      simp only [SDLK_1, SDLK_E, SDLK_D] at k k2
      omega
    · have hii : i2 = i := Fin.ext (by omega)
      subst hii
      exact Function.update_noteq hj _ _

/-! ## Pixel packing -/

theorem or_of_lt (i a b : Nat) (hb : b < 2 ^ i) : (a * 2 ^ i) ||| b = a * 2 ^ i + b := by
  rw [Nat.mul_comm a (2 ^ i), ← Nat.mul_add_lt_is_or hb]

/-- C18. For every coverage byte `a` and every tint, `px` returns
`a * 2^24 + b * 2^16 + g * 2^8 + r`, a 32-bit value whose bits 24..31 are the
coverage and whose low 24 bits are the packed tint, the same for every
coverage. -/
theorem px_value (a : Fin 256) (c : RGB) :
    px a c = a.val * 2 ^ 24 + c.b.val * 2 ^ 16 + c.g.val * 2 ^ 8 + c.r.val ∧
      px a c < 2 ^ 32 ∧
      px a c / 2 ^ 24 = a.val ∧
      px a c % 2 ^ 24 = c.b.val * 2 ^ 16 + c.g.val * 2 ^ 8 + c.r.val ∧
      (∀ a2 : Fin 256, px a2 c % 2 ^ 24 = px a c % 2 ^ 24) := by
  have key : ∀ x : Fin 256, px x c = x.val * 2 ^ 24 + c.b.val * 2 ^ 16 + c.g.val * 2 ^ 8 + c.r.val := by
    intro x
    have hx := x.isLt
    have hb := c.b.isLt
    have hg := c.g.isLt
    have hr := c.r.isLt
    unfold px
    rw [Nat.shiftLeft_eq, Nat.shiftLeft_eq, Nat.shiftLeft_eq,
      Nat.mod_eq_of_lt (by omega), Nat.mod_eq_of_lt (by omega), Nat.mod_eq_of_lt (by omega)]
    have e1 : x.val * 2 ^ 24 ||| c.b.val * 2 ^ 16 = x.val * 2 ^ 24 + c.b.val * 2 ^ 16 :=
      or_of_lt 24 _ _ (by omega)
    have e2 : (x.val * 2 ^ 24 + c.b.val * 2 ^ 16) ||| c.g.val * 2 ^ 8 =
        x.val * 2 ^ 24 + c.b.val * 2 ^ 16 + c.g.val * 2 ^ 8 := by
      have h := or_of_lt 16 (x.val * 2 ^ 8 + c.b.val) (c.g.val * 2 ^ 8) (by omega)
      have e : (x.val * 2 ^ 8 + c.b.val) * 2 ^ 16 = x.val * 2 ^ 24 + c.b.val * 2 ^ 16 := by omega
      rw [e] at h
      exact h
    have e3 : (x.val * 2 ^ 24 + c.b.val * 2 ^ 16 + c.g.val * 2 ^ 8) ||| c.r.val =
        x.val * 2 ^ 24 + c.b.val * 2 ^ 16 + c.g.val * 2 ^ 8 + c.r.val := by
      have h := or_of_lt 8 (x.val * 2 ^ 16 + c.b.val * 2 ^ 8 + c.g.val) c.r.val (by omega)
      have e : (x.val * 2 ^ 16 + c.b.val * 2 ^ 8 + c.g.val) * 2 ^ 8 =
          x.val * 2 ^ 24 + c.b.val * 2 ^ 16 + c.g.val * 2 ^ 8 := by omega
      rw [e] at h
      exact h
    rw [e1, e2, e3]
  have ha := a.isLt
  have hb := c.b.isLt
  have hg := c.g.isLt
  have hr := c.r.isLt
  refine ⟨key a, ?_, ?_, ?_, ?_⟩
  · rw [key a]; omega
  · rw [key a]; omega
  · rw [key a]; omega
  · intro a2
    have h2 := a2.isLt
    rw [key a, key a2]; omega

/-! ## The feature list -/

theorem foldl_filter_map {α β : Type} (p : α → Bool) (g : α → β) :
    ∀ (l : List α) (acc : List β),
      l.foldl (fun f i => if p i then f ++ [g i] else f) acc = acc ++ (l.filter p).map g := by
  intro l
  induction l with
  | nil => intro acc; simp
  | cons x xs ih =>
    intro acc
    rw [List.foldl_cons, ih]
    cases hp : p x
    · simp [hp]
    · simp [hp]

theorem features_eq (ss_flags : Fin 9 → Bool) (ss_present : Fin 20 → Bool) :
    features ss_flags ss_present =
      ((List.finRange 9).filter
        (fun i => ss_flags i && ss_present (Fin.castLE (by decide) i))).map feature_entry := by
  unfold features
  rw [foldl_filter_map (fun i => ss_flags i && ss_present (Fin.castLE (by decide) i))
    feature_entry]
  rfl

theorem feature_entry_injective : Function.Injective feature_entry := by
  intro i j h
  have ht : feature_tag i.val = feature_tag j.val := congrArg hb_feature_t.tag h
  revert ht
  revert i j
  decide

/-- C16. The feature list holds, in increasing index order, exactly one entry
for each index `i` in 0..8 whose flag is enabled and present, and no other
entry; the entry of `i` has the tag `ss0(i+1)`, value 1, start 0 and end
`2^32 - 1`; the list has at most 9 entries. -/
theorem features_spec (ss_flags : Fin 9 → Bool) (ss_present : Fin 20 → Bool) :
    features ss_flags ss_present =
        ((List.finRange 9).filter
          (fun i => ss_flags i && ss_present (Fin.castLE (by decide) i))).map feature_entry ∧
      (features ss_flags ss_present).length ≤ 9 ∧
      (∀ i : Fin 9, (features ss_flags ss_present).count (feature_entry i) =
        if ss_flags i = true ∧ ss_present (Fin.castLE (by decide) i) = true then 1 else 0) ∧
      (∀ i : Fin 9, feature_entry i =
        { tag := FT_MAKE_TAG 's'.toNat 's'.toNat '0'.toNat (Nat.digitChar (i.val + 1)).toNat,
          value := 1, start := 0, end_ := 2 ^ 32 - 1 }) ∧
      List.Pairwise (fun e f => e.tag < f.tag) (features ss_flags ss_present) := by
  refine ⟨features_eq _ _, ?_, ?_, by decide, ?_⟩
  · rw [features_eq, List.length_map]
    exact le_trans (List.length_filter_le _ _) (by simp)
  · intro i
    rw [features_eq, List.count_map_of_injective _ _ feature_entry_injective]
    by_cases h : ss_flags i = true ∧ ss_present (Fin.castLE (by decide) i) = true
    · rw [if_pos h, List.count_filter (by simp [h.1, h.2])]
      exact List.count_eq_one_of_mem (List.nodup_finRange 9) (List.mem_finRange i)
    · rw [if_neg h, List.count_eq_zero]
      intro hm
      have := (List.mem_filter.mp hm).2
      simp only [Bool.and_eq_true] at this
      exact h this
  · rw [features_eq, List.pairwise_map]
    apply List.Pairwise.filter
    have hall : List.Pairwise (fun a b : Fin 9 => (feature_entry a).tag < (feature_entry b).tag)
        (List.finRange 9) := by decide
    exact hall

/-! ## The line loop -/

theorem NUL_ne_NL : NUL ≠ NL := by decide

theorem line_loop_spec : ∀ (rest cur : List Char), NUL ∉ rest → NL ∉ cur →
    ∃ lines, line_loop (rest ++ [NUL]) cur = some lines ∧
      lines.length = rest.count NL + 1 ∧ (∀ l ∈ lines, NL ∉ l) ∧
      List.intercalate [NL] lines = cur ++ rest := by
  intro rest
  induction rest with
  | nil =>
    intro cur _ hcur
    refine ⟨[cur], ?_, by simp, ?_, by simp [List.intercalate]⟩
    · simp [line_loop]
    · intro l hl
      rw [List.mem_singleton] at hl
      rw [hl]; exact hcur
  | cons c rest ih =>
    intro cur hnul hcur
    have hc : c ≠ NUL := fun h => hnul (by rw [h]; exact List.mem_cons_self _ _)
    have hrest : NUL ∉ rest := fun h => hnul (List.mem_cons_of_mem _ h)
    by_cases hnl : c = NL
    · obtain ⟨lines, h1, h2, h3, h4⟩ := ih [] hrest (by simp)
      refine ⟨cur :: lines, ?_, ?_, ?_, ?_⟩
      · rw [List.cons_append, line_loop, if_pos (Or.inl hnl), if_neg hc, h1]
        rfl
      · rw [List.length_cons, h2, hnl, List.count_cons_self]
      · intro l hl
        rcases List.mem_cons.mp hl with h | h
        · rw [h]; exact hcur
        · exact h3 l h
      · cases lines with
        | nil => simp at h2
        | cons x xs =>
          have e : List.intercalate [NL] (cur :: x :: xs) =
              cur ++ [NL] ++ List.intercalate [NL] (x :: xs) := by
            simp [List.intercalate, List.intersperse]
          rw [e, h4, hnl]
          simp
    · obtain ⟨lines, h1, h2, h3, h4⟩ := ih (cur ++ [c]) hrest (by
        intro h
        rcases List.mem_append.mp h with h | h
        · exact hcur h
        · rw [List.mem_singleton] at h
          exact hnl h.symm)
      refine ⟨lines, ?_, ?_, h3, ?_⟩
      · rw [List.cons_append, line_loop, if_neg (by
          intro h
          rcases h with h | h
          · exact hnl h
          · exact hc h), h1]
      · rw [h2, List.count_cons_of_ne (fun h => hnl h.symm)]
      · rw [h4]; simp

/-- C17. For every NUL-free text the line loop ends and shapes, in order,
exactly the segments between the line breaks: one more line than there are
breaks, no line holding a break, the lines joined by breaks giving back the
text (so what follows the last break is a line too), that is the text split at
each break. -/
theorem render_lines_spec (text : List Char) (h : NUL ∉ text) :
    ∃ lines, render_lines text = some lines ∧
      lines.length = text.count NL + 1 ∧ (∀ l ∈ lines, NL ∉ l) ∧
      List.intercalate [NL] lines = text ∧ lines = text.splitOn NL := by
  obtain ⟨lines, h1, h2, h3, h4⟩ := line_loop_spec text [] h (by simp)
  rw [List.nil_append] at h4
  refine ⟨lines, h1, h2, h3, h4, ?_⟩
  have hne : lines ≠ [] := by
    intro h0
    rw [h0] at h2
    simp at h2
  have := List.splitOn_intercalate lines NL h3 hne
  rw [h4] at this
  exact this.symm

/-- C17, on the text `ab`, break, `cd`: two lines. -/
theorem render_lines_spec_witness :
    NUL ∉ ['a', 'b', NL, 'c', 'd'] ∧
      render_lines ['a', 'b', NL, 'c', 'd'] = some [['a', 'b'], ['c', 'd']] :=
  ⟨by decide, by
    obtain ⟨lines, h1, _, _, _, h5⟩ := render_lines_spec ['a', 'b', NL, 'c', 'd'] (by decide)
    rw [h1, h5]
    decide⟩

/-! ## Colour parsing -/

/-- C15, at strings that are not six hexadecimal digits: `strtol` skips white
space and reads a sign and a `0x` prefix, so the six characters `+12345`,
a blank and `12345`, `0x1234` and `-12345` are accepted as colours, after an
optional `#` too; a well-formed colour is read as the claim says, and a
string of another length or with a foreign character is rejected. -/
theorem parse_hex_colour_accepts_sign :
    parse_hex_colour "+12345".toList = some ⟨1, 35, 69⟩ ∧
      parse_hex_colour " 12345".toList = some ⟨1, 35, 69⟩ ∧
      parse_hex_colour "0x1234".toList = some ⟨0, 18, 52⟩ ∧
      parse_hex_colour "-12345".toList = some ⟨254, 220, 187⟩ ∧
      parse_hex_colour "#+12345".toList = some ⟨1, 35, 69⟩ ∧
      parse_hex_colour "#ff8000".toList = some ⟨255, 128, 0⟩ ∧
      parse_hex_colour "FF8000".toList = some ⟨255, 128, 0⟩ ∧
      parse_hex_colour "#12345".toList = none ∧
      parse_hex_colour "12345g".toList = none := by
  refine ⟨by decide, by decide, by decide, by decide, by decide, by decide, by decide,
    by decide, by decide⟩

/-! ## The zero floor -/

theorem gcdAll_eq_zero_iff (ds : List Int) : gcdAll ds = 0 ↔ ∀ d ∈ ds, d = 0 := by
  induction ds with
  | nil => simp [gcdAll]
  | cons d ds ih =>
    have e : gcdAll (d :: ds) = (Int.gcd d (gcdAll ds) : Int) := rfl
    rw [e, Int.natCast_eq_zero, Int.gcd_eq_zero_iff, ih]
    simp

/-- The value before the zero floor, in terms of the in-range distances. -/
theorem gcd_before_floor_eq (m : FT_MM_Var) (idx : Nat) :
    gcd_before_floor m idx =
      before_floor ((axisAt m idx).maximum.toInt - (axisAt m idx).minimum.toInt)
        (gcdAll (sampleDistances m idx)) (sampleDistances m idx).length := by
  simp only [gcd_before_floor, sampleDistances, distances, List.length_map]
  generalize axisAt m idx = a
  have h1 := toInt_range a.minimum
  have h2 := toInt_range a.maximum
  have h3 := toInt_range a.def_
  rw [samples_spec _ _ _ h3 _ 0 0 (coordsOf_range m idx) (le_refl _) (by omega) (fun _ => rfl),
    wrap32_of_fits (by omega) (by omega), Int.gcd_zero_left]
  simp only [Nat.zero_add, distances]
  rw [Int.natAbs_of_nonneg (gcdAll_nonneg _)]

/-- The step of a declared axis is the value before the floor, lifted to 1
when it is 0. -/
theorem init_axis_step_floor (m : FT_MM_Var) (tag idx : Nat) (fb_min fb_max fb_def : Int)
    (hloc : locate tag m.axis 0 = some idx) :
    (init_axis (some m) tag fb_min fb_max fb_def).step =
      if gcd_before_floor m idx = 0 then 1 else gcd_before_floor m idx := by
  simp only [init_axis, hloc, decide_step, gcd_before_floor]

theorem inRange_all (mn mx : Int) (cs : List Int) (h : ∀ c ∈ cs, mn ≤ c ∧ c ≤ mx) :
    inRange mn mx cs = cs := by
  unfold inRange
  rw [List.filter_eq_self]
  intro c hc
  simpa using h c hc

/-- C19, refuted: on the font whose three named instances are all upright, the
slant axis -15..0 with default 0 is well declared and every coordinate on it,
0, lies in its range, yet the value before the last test is 0 and the floor
makes the step 1. -/
theorem zero_floor_reached :
    locate TAG_slnt font_upright.axis 0 = some 1 ∧
      ((axisAt font_upright 1).minimum.raw ≤ (axisAt font_upright 1).def_.raw ∧
        (axisAt font_upright 1).def_.raw ≤ (axisAt font_upright 1).maximum.raw) ∧
      (∀ c ∈ coordsOf font_upright 1,
        (axisAt font_upright 1).minimum.toInt ≤ c ∧ c ≤ (axisAt font_upright 1).maximum.toInt) ∧
      gcd_before_floor font_upright 1 = 0 ∧
      (init_axis (some font_upright) TAG_slnt (-15) 0 0).step = 1 := by
  have h : gcd_before_floor font_upright 1 = 0 := by
    rw [gcd_before_floor_eq]; decide
  refine ⟨by decide, by decide, by decide, h, ?_⟩
  rw [init_axis_step_floor font_upright TAG_slnt 1 (-15) 0 0 (by decide), if_pos h]

/-- C19, amended. For a declared axis with `minimum <= default <= maximum`
whose named-instance coordinates all lie within `[min, max]`, the value
computed just before the test `if (gcd == 0)` is 0 exactly when there are at
least 3 named instances, all of them at the default, and `min` differs from
`max`; then the floor makes the step 1. In every other case that value is
already at least 1 and is the step. -/
theorem zero_floor_iff (m : FT_MM_Var) (tag idx : Nat) (fb_min fb_max fb_def : Int)
    (hloc : locate tag m.axis 0 = some idx)
    (hdecl : (axisAt m idx).minimum.raw ≤ (axisAt m idx).def_.raw ∧
      (axisAt m idx).def_.raw ≤ (axisAt m idx).maximum.raw)
    (hall : ∀ c ∈ coordsOf m idx,
      (axisAt m idx).minimum.toInt ≤ c ∧ c ≤ (axisAt m idx).maximum.toInt) :
    (gcd_before_floor m idx = 0 ↔
        3 ≤ (coordsOf m idx).length ∧ (∀ c ∈ coordsOf m idx, c = (axisAt m idx).def_.toInt) ∧
          (axisAt m idx).minimum.toInt ≠ (axisAt m idx).maximum.toInt) ∧
      (gcd_before_floor m idx ≠ 0 → 1 ≤ gcd_before_floor m idx) ∧
      (init_axis (some m) tag fb_min fb_max fb_def).step =
        if gcd_before_floor m idx = 0 then 1 else gcd_before_floor m idx := by
  have hD : sampleDistances m idx =
      (coordsOf m idx).map (fun c => |c - (axisAt m idx).def_.toInt|) := by
    unfold sampleDistances distances
    rw [inRange_all _ _ _ hall]
  have hlen : (sampleDistances m idx).length = (coordsOf m idx).length := by
    rw [hD, List.length_map]
  have hzero : gcdAll (sampleDistances m idx) = 0 ↔
      ∀ c ∈ coordsOf m idx, c = (axisAt m idx).def_.toInt := by
    rw [gcdAll_eq_zero_iff, hD]
    constructor
    · intro h c hc
      have := h _ (List.mem_map.mpr ⟨c, hc, rfl⟩)
      have h2 := abs_eq_zero.mp this
      omega
    · intro h d hd
      obtain ⟨c, hc, rfl⟩ := List.mem_map.mp hd
      rw [h c hc]
      simp
  have hnn := gcdAll_nonneg (sampleDistances m idx)
  have hmono := toInt_mono hdecl.1
  have hmono2 := toInt_mono hdecl.2
  refine ⟨?_, ?_, init_axis_step_floor m tag idx fb_min fb_max fb_def hloc⟩
  · rw [gcd_before_floor_eq, before_floor, hlen]
    constructor
    · intro h
      by_cases hc : (coordsOf m idx).length < 3 ∨ gcdAll (sampleDistances m idx) =
          (axisAt m idx).maximum.toInt - (axisAt m idx).minimum.toInt
      · rw [if_pos hc, MAX_eq_max] at h
        omega
      · rw [if_neg hc] at h
        refine ⟨by omega, hzero.mp h, ?_⟩
        intro heq
        exact hc (Or.inr (by rw [h]; omega))
    · rintro ⟨h3, hz, hne⟩
      have hg := hzero.mpr hz
      rw [if_neg (by rw [hg]; omega), hg]
  · intro hne
    rw [gcd_before_floor_eq, before_floor] at hne ⊢
    split_ifs at hne ⊢
    · rw [MAX_eq_max]; omega
    · omega

/-- C19 amended, on the font whose three named instances are all upright. -/
theorem zero_floor_iff_witness :
    locate TAG_slnt font_upright.axis 0 = some 1 ∧
      (init_axis (some font_upright) TAG_slnt (-15) 0 0).step =
        if gcd_before_floor font_upright 1 = 0 then 1 else gcd_before_floor font_upright 1 :=
  ⟨by decide,
    (zero_floor_iff font_upright TAG_slnt 1 (-15) 0 0 (by decide) (by decide) (by decide)).2.2⟩

/-! ## The order of the named instances -/

theorem gcdAll_perm {l1 l2 : List Int} (h : l1.Perm l2) : gcdAll l1 = gcdAll l2 := by
  induction h with
  | nil => rfl
  | cons x _ ih =>
    show (Int.gcd x (gcdAll _) : Int) = (Int.gcd x (gcdAll _) : Int)
    rw [ih]
  | swap x y l =>
    show (Int.gcd y (Int.gcd x (gcdAll l) : Int) : Int) =
      (Int.gcd x (Int.gcd y (gcdAll l) : Int) : Int)
    rw [← Int.gcd_assoc, ← Int.gcd_assoc, Int.gcd_comm y x]
  | trans _ _ ih1 ih2 => exact ih1.trans ih2

theorem sampleDistances_perm (m1 m2 : FT_MM_Var) (idx : Nat) (hax : m1.axis = m2.axis)
    (hp : m1.namedstyle.Perm m2.namedstyle) :
    (sampleDistances m1 idx).Perm (sampleDistances m2 idx) := by
  have ha : axisAt m1 idx = axisAt m2 idx := by unfold axisAt; rw [hax]
  unfold sampleDistances distances inRange coordsOf
  rw [ha]
  exact ((hp.map _).filter _).map _

/-- C20. Two variation tables with the same axis records whose named
instances are permutations of each other give the same record for every tag
and every fallback triple: `present`, `min`, `max`, default and step do not
depend on the order of the named instances. -/
theorem init_axis_perm (m1 m2 : FT_MM_Var) (tag : Nat) (fb_min fb_max fb_def : Int)
    (hax : m1.axis = m2.axis) (hp : m1.namedstyle.Perm m2.namedstyle) :
    init_axis (some m1) tag fb_min fb_max fb_def =
      init_axis (some m2) tag fb_min fb_max fb_def := by
  cases hloc : locate tag m1.axis 0 with
  | none =>
    rw [init_axis_missing m1 tag fb_min fb_max fb_def hloc,
      init_axis_missing m2 tag fb_min fb_max fb_def (by rw [← hax]; exact hloc)]
  | some idx =>
    have ha : axisAt m1 idx = axisAt m2 idx := by unfold axisAt; rw [hax]
    have hs := sampleDistances_perm m1 m2 idx hax hp
    rw [init_axis_present m1 tag idx fb_min fb_max fb_def hloc,
      init_axis_present m2 tag idx fb_min fb_max fb_def (by rw [← hax]; exact hloc),
      ha, gcdAll_perm hs, hs.length_eq]

/-- C20, on the font with named instances 300, 400, 700 and the same font
listing them as 700, 300, 400. -/
theorem init_axis_perm_witness :
    font_wght.axis = font_wght_shuffled.axis ∧
      font_wght.namedstyle.Perm font_wght_shuffled.namedstyle ∧
      init_axis (some font_wght) TAG_wght 100 900 400 =
        init_axis (some font_wght_shuffled) TAG_wght 100 900 400 :=
  ⟨rfl,
    (List.perm_append_comm :
      List.Perm ([styleAt 300 (by decide), styleAt 400 (by decide)] ++ [styleAt 700 (by decide)])
        ([styleAt 700 (by decide)] ++ [styleAt 300 (by decide), styleAt 400 (by decide)])),
    init_axis_perm font_wght font_wght_shuffled TAG_wght 100 900 400 rfl
      (List.perm_append_comm :
        List.Perm ([styleAt 300 (by decide), styleAt 400 (by decide)] ++
          [styleAt 700 (by decide)])
          ([styleAt 700 (by decide)] ++ [styleAt 300 (by decide), styleAt 400 (by decide)]))⟩

/-! ## Reaching the designer's stops -/

theorem gcdAll_dvd (ds : List Int) : ∀ d ∈ ds, gcdAll ds ∣ d := by
  induction ds with
  | nil => intro d hd; simp at hd
  | cons x xs ih =>
    intro d hd
    have e : gcdAll (x :: xs) = (Int.gcd x (gcdAll xs) : Int) := rfl
    rcases List.mem_cons.mp hd with h | h
    · rw [e, h]; exact Int.gcd_dvd_left
    · rw [e]; exact dvd_trans Int.gcd_dvd_right (ih d h)

/-- Pressing the increment key `k` times adds `k` steps while the sum stays
below `max`. -/
theorem up_iterate (g : Int) (hg : 0 < g) :
    ∀ (k : Nat) (a : Axis), a.step = g → -2147483648 ≤ a.def_ → a.max < 2147483648 →
      a.def_ + k * g ≤ a.max → (Axis.up^[k] a).def_ = a.def_ + k * g := by
  intro k
  induction k with
  | zero => intro a _ _ _ _; simp
  | succ k ih =>
    intro a hs h1 h2 h3
    have hk : (0 : Int) ≤ (k : Int) * g := by positivity
    have hup : a.up.def_ = a.def_ + g := by
      unfold Axis.up
      simp only
      rw [hs, wrap32_of_fits (by omega) (by push_cast at h3; nlinarith), MIN_eq_min]
      push_cast at h3
      have : a.def_ + g ≤ a.max := by nlinarith
      omega
    rw [Function.iterate_succ_apply, ih a.up hs (by rw [hup]; omega) h2 (by
      rw [hup]
      show a.def_ + g + k * g ≤ a.max
      push_cast at h3
      nlinarith), hup]
    push_cast
    ring

/-- Pressing the decrement key `k` times subtracts `k` steps while the
difference stays above `min`. -/
theorem down_iterate (g : Int) (hg : 0 < g) :
    ∀ (k : Nat) (a : Axis), a.step = g → a.def_ < 2147483648 → -2147483648 ≤ a.min →
      a.min ≤ a.def_ - k * g → (Axis.down^[k] a).def_ = a.def_ - k * g := by
  intro k
  induction k with
  | zero => intro a _ _ _ _; simp
  | succ k ih =>
    intro a hs h1 h2 h3
    have hk : (0 : Int) ≤ (k : Int) * g := by positivity
    have hdown : a.down.def_ = a.def_ - g := by
      unfold Axis.down
      simp only
      rw [hs, wrap32_of_fits (by push_cast at h3; nlinarith) (by omega), MAX_eq_max]
      push_cast at h3
      have : a.min ≤ a.def_ - g := by nlinarith
      omega
    rw [Function.iterate_succ_apply, ih a.down hs (by rw [hdown]; omega) h2 (by
      rw [hdown]
      show a.min ≤ a.def_ - g - k * g
      push_cast at h3
      nlinarith), hdown]
    push_cast
    ring

theorem keyDown_upKey (x : AxisName) (s : State) (hp : (x.get s).present = true) :
    (keyDown s x.upKey).quit = false ∧ x.get (keyDown s x.upKey).state = (x.get s).up := by
  cases x
  · show (keyDown s SDLK_Q).quit = false ∧ (keyDown s SDLK_Q).state.wght = s.wght.up
    rw [keyDown_Q, if_pos (show s.wght.present = true from hp)]; exact ⟨rfl, rfl⟩
  · show (keyDown s SDLK_W).quit = false ∧ (keyDown s SDLK_W).state.wdth = s.wdth.up
    rw [keyDown_W, if_pos (show s.wdth.present = true from hp)]; exact ⟨rfl, rfl⟩
  · show (keyDown s SDLK_D).quit = false ∧ (keyDown s SDLK_D).state.slnt = s.slnt.up
    rw [keyDown_D, if_pos (show s.slnt.present = true from hp)]; exact ⟨rfl, rfl⟩

theorem keyDown_downKey (x : AxisName) (s : State) (hp : (x.get s).present = true) :
    (keyDown s x.downKey).quit = false ∧
      x.get (keyDown s x.downKey).state = (x.get s).down := by
  cases x
  · show (keyDown s SDLK_A).quit = false ∧ (keyDown s SDLK_A).state.wght = s.wght.down
    rw [keyDown_A, if_pos (show s.wght.present = true from hp)]; exact ⟨rfl, rfl⟩
  · show (keyDown s SDLK_S).quit = false ∧ (keyDown s SDLK_S).state.wdth = s.wdth.down
    rw [keyDown_S, if_pos (show s.wdth.present = true from hp)]; exact ⟨rfl, rfl⟩
  · show (keyDown s SDLK_E).quit = false ∧ (keyDown s SDLK_E).state.slnt = s.slnt.down
    rw [keyDown_E, if_pos (show s.slnt.present = true from hp)]; exact ⟨rfl, rfl⟩

theorem run_replicate_up (x : AxisName) :
    ∀ (k : Nat) (s : State), (x.get s).present = true →
      x.get (run s (List.replicate k x.upKey)) = Axis.up^[k] (x.get s) := by
  intro k
  induction k with
  | zero => intro s _; rfl
  | succ k ih =>
    intro s hp
    obtain ⟨hq, hst⟩ := keyDown_upKey x s hp
    rw [List.replicate_succ, run, hq]
    simp only [Bool.false_eq_true, if_false]
    rw [ih _ (by rw [hst]; exact hp), hst, Function.iterate_succ_apply]

theorem run_replicate_down (x : AxisName) :
    ∀ (k : Nat) (s : State), (x.get s).present = true →
      x.get (run s (List.replicate k x.downKey)) = Axis.down^[k] (x.get s) := by
  intro k
  induction k with
  | zero => intro s _; rfl
  | succ k ih =>
    intro s hp
    obtain ⟨hq, hst⟩ := keyDown_downKey x s hp
    rw [List.replicate_succ, run, hq]
    simp only [Bool.false_eq_true, if_false]
    rw [ih _ (by rw [hst]; exact hp), hst, Function.iterate_succ_apply]

/-- From a state whose axis `x` is present with a positive step dividing
`c - def`, the in-range value `c` is reached by pressing one of the two keys
of `x` a number of times. -/
theorem axis_reach (x : AxisName) (s : State) (c : Int)
    (hp : (x.get s).present = true) (hg : 0 < (x.get s).step)
    (hdvd : (x.get s).step ∣ c - (x.get s).def_)
    (hc : (x.get s).min ≤ c ∧ c ≤ (x.get s).max)
    (hb : -2147483648 ≤ (x.get s).def_ ∧ (x.get s).def_ < 2147483648 ∧
      -2147483648 ≤ (x.get s).min ∧ (x.get s).max < 2147483648) :
    ∃ keys : List Nat, (∀ k ∈ keys, k = x.upKey ∨ k = x.downKey) ∧
      (x.get (run s keys)).def_ = c := by
  obtain ⟨q, hq⟩ := hdvd
  by_cases hsign : 0 ≤ q
  · obtain ⟨k, rfl⟩ := Int.eq_ofNat_of_zero_le hsign
    refine ⟨List.replicate k x.upKey, fun y hy => Or.inl (List.eq_of_mem_replicate hy), ?_⟩
    rw [run_replicate_up x k s hp,
      up_iterate _ hg k (x.get s) rfl hb.1 hb.2.2.2 (by
        have := hc.2
        have e : (x.get s).def_ + (k : Int) * (x.get s).step = c := by
          rw [mul_comm]; omega
        omega)]
    rw [mul_comm]; omega
  · obtain ⟨k, hk⟩ := Int.eq_ofNat_of_zero_le (show 0 ≤ -q by omega)
    have hqk : q = -(k : Int) := by omega
    subst hqk
    refine ⟨List.replicate k x.downKey, fun y hy => Or.inr (List.eq_of_mem_replicate hy), ?_⟩
    have e : (x.get s).def_ - (k : Int) * (x.get s).step = c := by
      have : (x.get s).step * -(k : Int) = -((k : Int) * (x.get s).step) := by ring
      omega
    rw [run_replicate_down x k s hp,
      down_iterate _ hg k (x.get s) rfl hb.2.1 hb.2.2.1 (by have := hc.1; omega)]
    exact e

theorem decide_step_gcd (range g : Int) (n : Nat) (h3 : 3 ≤ n) (h0 : g ≠ 0)
    (hr : g ≠ range) : decide_step range g n = g := by
  have hb : before_floor range g n = g := by
    unfold before_floor
    rw [if_neg (by omega)]
  unfold decide_step
  rw [hb, if_neg h0]

/-- The axis `x` of the start-up state, when the table declares it: the
record of `init_axis`, with the default clamped for weight and width. -/
theorem main_init_axis (m : FT_MM_Var) (face : hb_face_t) (x : AxisName) (idx : Nat)
    (hloc : locate x.tag m.axis 0 = some idx) :
    (x.get (main_init (some m) face)).present = true ∧
      (x.get (main_init (some m) face)).min = (axisAt m idx).minimum.toInt ∧
      (x.get (main_init (some m) face)).max = (axisAt m idx).maximum.toInt ∧
      (x.get (main_init (some m) face)).step =
        decide_step ((axisAt m idx).maximum.toInt - (axisAt m idx).minimum.toInt)
          (gcdAll (sampleDistances m idx)) (sampleDistances m idx).length ∧
      ((x.get (main_init (some m) face)).def_ = (axisAt m idx).def_.toInt ∨
        (x.get (main_init (some m) face)).def_ =
          MIN (MAX 400 (axisAt m idx).minimum.toInt) (axisAt m idx).maximum.toInt ∨
        (x.get (main_init (some m) face)).def_ =
          MIN (MAX 100 (axisAt m idx).minimum.toInt) (axisAt m idx).maximum.toInt) ∧
      (x = AxisName.slnt →
        (x.get (main_init (some m) face)).def_ = (axisAt m idx).def_.toInt) := by
  cases x
  · have e := init_axis_present m TAG_wght idx 100 900 400 hloc
    simp [AxisName.get, main_init, e]
  · have e := init_axis_present m TAG_wdth idx 50 100 100 hloc
    simp [AxisName.get, main_init, e]
  · have e := init_axis_present m TAG_slnt idx (-15) 0 0 hloc
    simp [AxisName.get, main_init, e]

/-- C12, refuted: the font with weight 100..900, declared default 450 and
named instances 150, 450, 750 gets the step 300 from the greatest common
divisor, but start-up puts the default at 400, and from 400 the keys only
ever give 100, 300, 400, 600, 700 and 900: the named instance 150 is never
reached. -/
theorem offgrid_stop_unreachable :
    locate TAG_wght font_offgrid.axis 0 = some 0 ∧
      3 ≤ (sampleDistances font_offgrid 0).length ∧
      gcdAll (sampleDistances font_offgrid 0) = 300 ∧
      (axisAt font_offgrid 0).maximum.toInt - (axisAt font_offgrid 0).minimum.toInt = 800 ∧
      (main_init (some font_offgrid) face_ss01).wght = ⟨true, 100, 900, 400, 300⟩ ∧
      150 ∈ inRange 100 900 (coordsOf font_offgrid 0) ∧
      ∀ keys : List Nat, (run (main_init (some font_offgrid) face_ss01) keys).wght.def_ ≠ 150 := by
  have e : init_axis (some font_offgrid) TAG_wght 100 900 400 = ⟨true, 100, 900, 450, 300⟩ := by
    rw [init_axis_present font_offgrid TAG_wght 0 100 900 400 (by decide)]
    decide
  have hs : (main_init (some font_offgrid) face_ss01).wght = ⟨true, 100, 900, 400, 300⟩ := by
    simp only [main_init, e]
    decide
  refine ⟨by decide, by decide, by decide, by decide, hs, by decide, ?_⟩
  intro keys
  have hinv := run_axes
    (fun a => a.min = 100 ∧ a.max = 900 ∧ a.step = 300 ∧
      (a.def_ = 100 ∨ a.def_ = 300 ∨ a.def_ = 400 ∨ a.def_ = 600 ∨ a.def_ = 700 ∨
        a.def_ = 900))
    (fun _ => True) (fun _ => True)
    (by
      intro a h
      obtain ⟨h1, h2, h3, h4⟩ := h
      unfold Axis.up Axis.down
      simp only [h1, h2, h3, MIN_eq_min, MAX_eq_max, wrap32, true_and]
      rcases h4 with h | h | h | h | h | h <;> rw [h] <;> decide)
    (fun _ _ => ⟨trivial, trivial⟩) (fun _ _ => ⟨trivial, trivial⟩) keys
    (main_init (some font_offgrid) face_ss01)
    ⟨by rw [hs]; decide, trivial, trivial⟩
  obtain ⟨⟨_, _, _, h4⟩, _, _⟩ := hinv
  omega

/-- A sufficient condition. For a present axis whose step was taken from the
greatest common divisor, every in-range named-instance coordinate is reached
from the default as start-up leaves it by pressing one of the two keys of the
axis a number of times, when that default differs from the declared default
by a multiple of the step; that is always so for the slant axis. -/
theorem stops_reachable (m : FT_MM_Var) (face : hb_face_t) (x : AxisName) (idx : Nat) (c : Int)
    (hloc : locate x.tag m.axis 0 = some idx)
    (h3 : 3 ≤ (sampleDistances m idx).length)
    (h0 : gcdAll (sampleDistances m idx) ≠ 0)
    (hr : gcdAll (sampleDistances m idx) ≠
      (axisAt m idx).maximum.toInt - (axisAt m idx).minimum.toInt)
    (hc : c ∈ inRange (axisAt m idx).minimum.toInt (axisAt m idx).maximum.toInt (coordsOf m idx))
    (hdiv : x = AxisName.slnt ∨
      gcdAll (sampleDistances m idx) ∣
        (x.get (main_init (some m) face)).def_ - (axisAt m idx).def_.toInt) :
    ∃ keys : List Nat, (∀ k ∈ keys, k = x.upKey ∨ k = x.downKey) ∧
      (x.get (run (main_init (some m) face) keys)).def_ = c := by
  obtain ⟨hp, hmin, hmax, hstep, hdef, hslnt⟩ := main_init_axis m face x idx hloc
  have hg : (x.get (main_init (some m) face)).step = gcdAll (sampleDistances m idx) := by
    rw [hstep]
    exact decide_step_gcd _ _ _ h3 h0 hr
  have hpos : 0 < gcdAll (sampleDistances m idx) := by
    have := gcdAll_nonneg (sampleDistances m idx)
    omega
  have hcr : (axisAt m idx).minimum.toInt ≤ c ∧ c ≤ (axisAt m idx).maximum.toInt := by
    unfold inRange at hc
    simpa using (List.mem_filter.mp hc).2
  have hcd : gcdAll (sampleDistances m idx) ∣ c - (axisAt m idx).def_.toInt := by
    have hm : |c - (axisAt m idx).def_.toInt| ∈ sampleDistances m idx := by
      unfold sampleDistances distances
      exact List.mem_map.mpr ⟨c, hc, rfl⟩
    exact (dvd_abs _ _).mp (gcdAll_dvd _ _ hm)
  have hdd : gcdAll (sampleDistances m idx) ∣
      (x.get (main_init (some m) face)).def_ - (axisAt m idx).def_.toInt := by
    rcases hdiv with h | h
    · rw [hslnt h, sub_self]; exact dvd_zero _
    · exact h
  have r1 := toInt_range (axisAt m idx).minimum
  have r2 := toInt_range (axisAt m idx).maximum
  have r3 := toInt_range (axisAt m idx).def_
  have hbd : -32768 ≤ (x.get (main_init (some m) face)).def_ ∧
      (x.get (main_init (some m) face)).def_ < 32768 := by
    rcases hdef with h | h | h
    · rw [h]; exact r3
    · rw [h, MIN_eq_min, MAX_eq_max]; omega
    · rw [h, MIN_eq_min, MAX_eq_max]; omega
  apply axis_reach x (main_init (some m) face) c hp (by rw [hg]; exact hpos)
  · rw [hg]
    have := dvd_sub hcd hdd
    simpa using this
  · rw [hmin, hmax]; exact hcr
  · rw [hmin, hmax]; omega

/-- On the font with weight 100..900, default 400 and named instances 300,
400, 700: the instance 700 is reached from the default. -/
theorem stops_reachable_witness :
    locate AxisName.wght.tag font_wght.axis 0 = some 0 ∧
      700 ∈ inRange (axisAt font_wght 0).minimum.toInt (axisAt font_wght 0).maximum.toInt
        (coordsOf font_wght 0) ∧
      ∃ keys : List Nat, (∀ k ∈ keys, k = AxisName.wght.upKey ∨ k = AxisName.wght.downKey) ∧
        (AxisName.wght.get (run (main_init (some font_wght) face_ss01) keys)).def_ = 700 :=
  ⟨by decide, by decide,
    stops_reachable font_wght face_ss01 AxisName.wght 0 700 (by decide) (by decide) (by decide)
      (by decide) (by decide) (Or.inr (by decide))⟩

/-! ## When a redraw happens without a change -/

theorem up_eq_self_iff (a : Axis) (h : a.ok) : a.up = a ↔ a.def_ = a.max := by
  obtain ⟨h1, h2, h3, h4, h5⟩ := h
  have e : a.up.def_ = min (a.def_ + a.step) a.max := by
    unfold Axis.up
    simp only
    rw [wrap32_of_fits (by omega) (by omega), MIN_eq_min]
  constructor
  · intro hu
    have := congrArg Axis.def_ hu
    rw [e] at this
    omega
  · intro hm
    have hd : a.up.def_ = a.def_ := by rw [e]; omega
    cases a
    simp only [Axis.up] at hd ⊢
    rw [hd]

theorem down_eq_self_iff (a : Axis) (h : a.ok) : a.down = a ↔ a.def_ = a.min := by
  obtain ⟨h1, h2, h3, h4, h5⟩ := h
  have e : a.down.def_ = max (a.def_ - a.step) a.min := by
    unfold Axis.down
    simp only
    rw [wrap32_of_fits (by omega) (by omega), MAX_eq_max]
  constructor
  · intro hu
    have := congrArg Axis.def_ hu
    rw [e] at this
    omega
  · intro hm
    have hd : a.down.def_ = a.def_ := by rw [e]; omega
    cases a
    simp only [Axis.down] at hd ⊢
    rw [hd]

theorem set_wght_eq_iff (s : State) (a : Axis) : { s with wght := a } = s ↔ a = s.wght := by
  constructor
  · intro h; exact congrArg State.wght h
  · intro h; rw [h]

theorem set_wdth_eq_iff (s : State) (a : Axis) : { s with wdth := a } = s ↔ a = s.wdth := by
  constructor
  · intro h; exact congrArg State.wdth h
  · intro h; rw [h]

theorem set_slnt_eq_iff (s : State) (a : Axis) : { s with slnt := a } = s ↔ a = s.slnt := by
  constructor
  · intro h; exact congrArg State.slnt h
  · intro h; rw [h]

theorem toggle_ne (s : State) (i : Fin 9) :
    { s with ss_flags := Function.update s.ss_flags i (!s.ss_flags i) } ≠ s := by
  intro h
  have h2 := congrFun (congrArg State.ss_flags h) i
  simp at h2

theorem atBound_Q (s : State) : atBound s SDLK_Q ↔ s.wght.def_ = s.wght.max := by
  unfold atBound; simp [SDLK_Q, SDLK_A, SDLK_W, SDLK_S, SDLK_E, SDLK_D]

theorem atBound_A (s : State) : atBound s SDLK_A ↔ s.wght.def_ = s.wght.min := by
  unfold atBound; simp [SDLK_Q, SDLK_A, SDLK_W, SDLK_S, SDLK_E, SDLK_D]

theorem atBound_W (s : State) : atBound s SDLK_W ↔ s.wdth.def_ = s.wdth.max := by
  unfold atBound; simp [SDLK_Q, SDLK_A, SDLK_W, SDLK_S, SDLK_E, SDLK_D]

theorem atBound_S (s : State) : atBound s SDLK_S ↔ s.wdth.def_ = s.wdth.min := by
  unfold atBound; simp [SDLK_Q, SDLK_A, SDLK_W, SDLK_S, SDLK_E, SDLK_D]

theorem atBound_D (s : State) : atBound s SDLK_D ↔ s.slnt.def_ = s.slnt.max := by
  unfold atBound; simp [SDLK_Q, SDLK_A, SDLK_W, SDLK_S, SDLK_E, SDLK_D]

theorem atBound_E (s : State) : atBound s SDLK_E ↔ s.slnt.def_ = s.slnt.min := by
  unfold atBound; simp [SDLK_Q, SDLK_A, SDLK_W, SDLK_S, SDLK_E, SDLK_D]

theorem atBound_digit (s : State) (i : Fin 9) : ¬ atBound s (SDLK_1 + i.val) := by
  have h := digit_key_ne i
  unfold atBound
  tauto

/-- C9, amended. In every state whose axes are as start-up and the keys leave
them (`min <= def <= max`, `step >= 1`), a key-down event sets `dirty` only if
it changed the state or it is an axis key of a present axis whose default is
already at the bound the key moves to: when `dirty` is set, the state is
unchanged exactly in that at-bound case. Every key press that changes the
state sets `dirty`, and `dirty` is set exactly for a key whose axis or feature
is present. -/
theorem dirty_only_if_changed_or_at_bound (s : State) (key : Nat)
    (hw : s.wght.ok) (hd : s.wdth.ok) (hs : s.slnt.ok) :
    ((keyDown s key).dirty = true → ((keyDown s key).state = s ↔ atBound s key)) ∧
      ((keyDown s key).dirty = true → (keyDown s key).state ≠ s ∨ atBound s key) ∧
      (addressed s key = true → atBound s key →
        (keyDown s key).dirty = true ∧ (keyDown s key).state = s) ∧
      ((keyDown s key).state ≠ s → (keyDown s key).dirty = true) ∧
      ((keyDown s key).dirty = true ↔ addressed s key = true) := by
  have hA := dirty_iff_addressed s key
  have key1 : (keyDown s key).dirty = true → ((keyDown s key).state = s ↔ atBound s key) := by
    rcases key_cases key with k | k | k | k | k | k | k | ⟨i, k⟩ | k
    · rw [k, keyDown_escape]; intro h; cases h
    · rw [k, keyDown_Q]; split
      · intro _; simp only; rw [set_wght_eq_iff, up_eq_self_iff _ hw, atBound_Q]
      · intro h; cases h
    · rw [k, keyDown_A]; split
      · intro _; simp only; rw [set_wght_eq_iff, down_eq_self_iff _ hw, atBound_A]
      · intro h; cases h
    · rw [k, keyDown_W]; split
      · intro _; simp only; rw [set_wdth_eq_iff, up_eq_self_iff _ hd, atBound_W]
      · intro h; cases h
    · rw [k, keyDown_S]; split
      · intro _; simp only; rw [set_wdth_eq_iff, down_eq_self_iff _ hd, atBound_S]
      · intro h; cases h
    · rw [k, keyDown_E]; split
      · intro _; simp only; rw [set_slnt_eq_iff, down_eq_self_iff _ hs, atBound_E]
      · intro h; cases h
    · rw [k, keyDown_D]; split
      · intro _; simp only; rw [set_slnt_eq_iff, up_eq_self_iff _ hs, atBound_D]
      · intro h; cases h
    · rw [k, keyDown_digit]; split
      · intro _
        simp only
        exact ⟨fun h => absurd h (toggle_ne s i), fun h => absurd h (atBound_digit s i)⟩
      · intro h; cases h
    · rw [keyDown_other s key k]; intro h; cases h
  have hdirty : (keyDown s key).dirty = true ↔ addressed s key = true := by rw [hA.1]
  refine ⟨key1, ?_, ?_, hA.2, hdirty⟩
  · intro h
    by_cases hb : atBound s key
    · exact Or.inr hb
    · exact Or.inl (fun he => hb ((key1 h).mp he))
  · intro ha hb
    have h := hdirty.mpr ha
    exact ⟨h, (key1 h).mpr hb⟩

/-- C9 amended, on the state with the weight at its maximum: Q sets `dirty`
and changes nothing. -/
theorem dirty_only_if_changed_or_at_bound_witness :
    state_top.wght.ok ∧ state_top.wdth.ok ∧ state_top.slnt.ok ∧
      addressed state_top SDLK_Q = true ∧ atBound state_top SDLK_Q ∧
      (keyDown state_top SDLK_Q).dirty = true ∧ (keyDown state_top SDLK_Q).state = state_top :=
  ⟨by decide, by decide, by decide, by decide, by decide,
    (dirty_only_if_changed_or_at_bound state_top SDLK_Q (by decide) (by decide)
      (by decide)).2.2.1 (by decide) (by decide)⟩

/-! ## Exactly when the designer's stops are reached -/

theorem keyDown_quit (s : State) (key : Nat) (h : key ≠ SDLK_ESCAPE) :
    (keyDown s key).quit = false := by
  rcases key_cases key with k | k | k | k | k | k | k | ⟨i, k⟩ | k
  · exact absurd k h
  · rw [k, keyDown_Q]; split <;> rfl
  · rw [k, keyDown_A]; split <;> rfl
  · rw [k, keyDown_W]; split <;> rfl
  · rw [k, keyDown_S]; split <;> rfl
  · rw [k, keyDown_E]; split <;> rfl
  · rw [k, keyDown_D]; split <;> rfl
  · rw [k, keyDown_digit]; split <;> rfl
  · rw [keyDown_other s key k]

theorem run_append (l1 l2 : List Nat) :
    ∀ s : State, (∀ k ∈ l1, k ≠ SDLK_ESCAPE) → run s (l1 ++ l2) = run (run s l1) l2 := by
  induction l1 with
  | nil => intro s _; rfl
  | cons k l1 ih =>
    intro s h
    have hq := keyDown_quit s k (h k (List.mem_cons_self _ _))
    rw [List.cons_append, run, run, hq]
    simp only [Bool.false_eq_true, if_false]
    exact ih _ (fun y hy => h y (List.mem_cons_of_mem _ hy))

theorem axis_keys_ne_escape (x : AxisName) :
    x.upKey ≠ SDLK_ESCAPE ∧ x.downKey ≠ SDLK_ESCAPE := by
  cases x <;> exact ⟨by decide, by decide⟩

theorem up_iterate_frame (k : Nat) (a : Axis) : a.sameFrame (Axis.up^[k] a) := by
  induction k with
  | zero => exact sameFrame_refl a
  | succ k ih =>
    rw [Function.iterate_succ_apply']
    exact ⟨ih.1, ih.2.1, ih.2.2.1, ih.2.2.2⟩

theorem down_iterate_frame (k : Nat) (a : Axis) : a.sameFrame (Axis.down^[k] a) := by
  induction k with
  | zero => exact sameFrame_refl a
  | succ k ih =>
    rw [Function.iterate_succ_apply']
    exact ⟨ih.1, ih.2.1, ih.2.2.1, ih.2.2.2⟩

/-- Pressing the decrement key `k` times from within the range gives
`max(def - k * step, min)`. -/
theorem down_iterate_clamp (g : Int) (hg : 0 < g) (hg2 : g ≤ 65535) :
    ∀ (k : Nat) (a : Axis), a.step = g → -32768 ≤ a.min → a.min ≤ a.def_ → a.def_ ≤ 32767 →
      (Axis.down^[k] a).def_ = max (a.def_ - k * g) a.min := by
  intro k
  induction k with
  | zero => intro a _ _ h _; simp; omega
  | succ k ih =>
    intro a hs h1 h2 h3
    have hk : (0 : Int) ≤ (k : Int) * g := by positivity
    have hdown : a.down.def_ = max (a.def_ - g) a.min := by
      unfold Axis.down
      simp only
      rw [hs, wrap32_of_fits (by omega) (by omega), MAX_eq_max]
    have hmin : a.down.min = a.min := rfl
    rw [Function.iterate_succ_apply, ih a.down hs (by rw [hmin]; exact h1)
      (by rw [hmin, hdown]; omega) (by rw [hdown]; omega), hmin, hdown]
    have e : ((k + 1 : Nat) : Int) * g = (k : Int) * g + g := by push_cast; ring
    rw [e]
    generalize (k : Int) * g = t at hk ⊢
    omega

/-- Pressing the increment key `k` times from within the range gives
`min(def + k * step, max)`. -/
theorem up_iterate_clamp (g : Int) (hg : 0 < g) (hg2 : g ≤ 65535) :
    ∀ (k : Nat) (a : Axis), a.step = g → a.max ≤ 32767 → a.def_ ≤ a.max → -32768 ≤ a.def_ →
      (Axis.up^[k] a).def_ = min (a.def_ + k * g) a.max := by
  intro k
  induction k with
  | zero => intro a _ _ h _; simp; omega
  | succ k ih =>
    intro a hs h1 h2 h3
    have hk : (0 : Int) ≤ (k : Int) * g := by positivity
    have hup : a.up.def_ = min (a.def_ + g) a.max := by
      unfold Axis.up
      simp only
      rw [hs, wrap32_of_fits (by omega) (by omega), MIN_eq_min]
    have hmax : a.up.max = a.max := rfl
    rw [Function.iterate_succ_apply, ih a.up hs (by rw [hmax]; exact h1)
      (by rw [hmax, hup]; omega) (by rw [hup]; omega), hmax, hup]
    have e : ((k + 1 : Nat) : Int) * g = (k : Int) * g + g := by push_cast; ring
    rw [e]
    generalize (k : Int) * g = t at hk ⊢
    omega

/-- From within the range, a value on the grid of `min` is reached by
pressing the decrement key down to `min` and then the increment key. -/
theorem reach_via_min (x : AxisName) (s : State) (c : Int)
    (hp : (x.get s).present = true) (hg : 0 < (x.get s).step)
    (hg2 : (x.get s).step ≤ 65535)
    (hb : -32768 ≤ (x.get s).min ∧ (x.get s).min ≤ (x.get s).def_ ∧
      (x.get s).def_ ≤ (x.get s).max ∧ (x.get s).max ≤ 32767)
    (hdvd : (x.get s).step ∣ c - (x.get s).min)
    (hc : (x.get s).min ≤ c ∧ c ≤ (x.get s).max) :
    ∃ keys : List Nat, (∀ k ∈ keys, k = x.upKey ∨ k = x.downKey) ∧
      (x.get (run s keys)).def_ = c := by
  obtain ⟨k1, hk1⟩ := Int.eq_ofNat_of_zero_le
    (show 0 ≤ (x.get s).def_ - (x.get s).min by omega)
  have hrun := run_replicate_down x k1 s hp
  have hfr := down_iterate_frame k1 (x.get s)
  have hdef := down_iterate_clamp _ hg hg2 k1 (x.get s) rfl hb.1 hb.2.1 (by omega)
  have hmin : (Axis.down^[k1] (x.get s)).def_ = (x.get s).min := by
    rw [hdef]
    have h1 : (k1 : Int) ≤ (k1 : Int) * (x.get s).step := by
      have : (0 : Int) ≤ (k1 : Int) := Int.ofNat_nonneg _
      nlinarith
    generalize (k1 : Int) * (x.get s).step = t at h1 ⊢
    omega
  obtain ⟨keys2, hk2, hr2⟩ := axis_reach x (run s (List.replicate k1 x.downKey)) c
    (by rw [hrun, hfr.1]; exact hp) (by rw [hrun, hfr.2.2.2]; exact hg)
    (by rw [hrun, hfr.2.2.2, hmin]; exact hdvd)
    (by rw [hrun, hfr.2.1, hfr.2.2.1]; exact hc)
    (by rw [hrun, hmin, hfr.2.1, hfr.2.2.1]; omega)
  refine ⟨List.replicate k1 x.downKey ++ keys2, ?_, ?_⟩
  · intro k hk
    rcases List.mem_append.mp hk with h | h
    · exact Or.inr (List.eq_of_mem_replicate h)
    · exact hk2 k h
  · rw [run_append _ _ s (fun k hk => by
      rw [List.eq_of_mem_replicate hk]; exact (axis_keys_ne_escape x).2)]
    exact hr2

/-- From within the range, a value on the grid of `max` is reached by
pressing the increment key up to `max` and then the decrement key. -/
theorem reach_via_max (x : AxisName) (s : State) (c : Int)
    (hp : (x.get s).present = true) (hg : 0 < (x.get s).step)
    (hg2 : (x.get s).step ≤ 65535)
    (hb : -32768 ≤ (x.get s).min ∧ (x.get s).min ≤ (x.get s).def_ ∧
      (x.get s).def_ ≤ (x.get s).max ∧ (x.get s).max ≤ 32767)
    (hdvd : (x.get s).step ∣ c - (x.get s).max)
    (hc : (x.get s).min ≤ c ∧ c ≤ (x.get s).max) :
    ∃ keys : List Nat, (∀ k ∈ keys, k = x.upKey ∨ k = x.downKey) ∧
      (x.get (run s keys)).def_ = c := by
  obtain ⟨k1, hk1⟩ := Int.eq_ofNat_of_zero_le
    (show 0 ≤ (x.get s).max - (x.get s).def_ by omega)
  have hrun := run_replicate_up x k1 s hp
  have hfr := up_iterate_frame k1 (x.get s)
  have hdef := up_iterate_clamp _ hg hg2 k1 (x.get s) rfl hb.2.2.2 hb.2.2.1 (by omega)
  have hmax : (Axis.up^[k1] (x.get s)).def_ = (x.get s).max := by
    rw [hdef]
    have h1 : (k1 : Int) ≤ (k1 : Int) * (x.get s).step := by
      have : (0 : Int) ≤ (k1 : Int) := Int.ofNat_nonneg _
      nlinarith
    generalize (k1 : Int) * (x.get s).step = t at h1 ⊢
    omega
  obtain ⟨keys2, hk2, hr2⟩ := axis_reach x (run s (List.replicate k1 x.upKey)) c
    (by rw [hrun, hfr.1]; exact hp) (by rw [hrun, hfr.2.2.2]; exact hg)
    (by rw [hrun, hfr.2.2.2, hmax]; exact hdvd)
    (by rw [hrun, hfr.2.1, hfr.2.2.1]; exact hc)
    (by rw [hrun, hmax, hfr.2.1, hfr.2.2.1]; omega)
  refine ⟨List.replicate k1 x.upKey ++ keys2, ?_, ?_⟩
  · intro k hk
    rcases List.mem_append.mp hk with h | h
    · exact Or.inl (List.eq_of_mem_replicate h)
    · exact hk2 k h
  · rw [run_append _ _ s (fun k hk => by
      rw [List.eq_of_mem_replicate hk]; exact (axis_keys_ne_escape x).1)]
    exact hr2

/-- A property of the axis `x` that both key bodies preserve holds after every
sequence of key-down events. -/
theorem run_axis_inv (x : AxisName) (P : Axis → Prop) (hP : ∀ a, P a → P a.up ∧ P a.down)
    (keys : List Nat) (s : State) (h : P (x.get s)) : P (x.get (run s keys)) := by
  cases x
  · exact (run_axes P (fun _ => True) (fun _ => True) hP (fun _ _ => ⟨trivial, trivial⟩)
      (fun _ _ => ⟨trivial, trivial⟩) keys s ⟨h, trivial, trivial⟩).1
  · exact (run_axes (fun _ => True) P (fun _ => True) (fun _ _ => ⟨trivial, trivial⟩) hP
      (fun _ _ => ⟨trivial, trivial⟩) keys s ⟨trivial, h, trivial⟩).2.1
  · exact (run_axes (fun _ => True) (fun _ => True) P (fun _ _ => ⟨trivial, trivial⟩)
      (fun _ _ => ⟨trivial, trivial⟩) hP keys s ⟨trivial, trivial, h⟩).2.2

/-- Whatever the keys, the default of an axis stays on the grid (the multiples
of the step `g`) of the value `d0` it started from, of `mn` or of `mx`. -/
theorem grid_invariant (g d0 mn mx : Int) (hg : 0 < g) (hg2 : g ≤ 65535)
    (hmn : -32768 ≤ mn ∧ mn ≤ 32767) (hmx : -32768 ≤ mx ∧ mx ≤ 32767) (a : Axis)
    (h : a.min = mn ∧ a.max = mx ∧ a.step = g ∧ -32768 ≤ a.def_ ∧ a.def_ ≤ 32767 ∧
      (g ∣ a.def_ - d0 ∨ g ∣ a.def_ - mn ∨ g ∣ a.def_ - mx)) :
    (a.up.min = mn ∧ a.up.max = mx ∧ a.up.step = g ∧ -32768 ≤ a.up.def_ ∧ a.up.def_ ≤ 32767 ∧
        (g ∣ a.up.def_ - d0 ∨ g ∣ a.up.def_ - mn ∨ g ∣ a.up.def_ - mx)) ∧
      (a.down.min = mn ∧ a.down.max = mx ∧ a.down.step = g ∧ -32768 ≤ a.down.def_ ∧
        a.down.def_ ≤ 32767 ∧
        (g ∣ a.down.def_ - d0 ∨ g ∣ a.down.def_ - mn ∨ g ∣ a.down.def_ - mx)) := by
  obtain ⟨h1, h2, h3, h4, h5, h6⟩ := h
  have hup : a.up.def_ = a.def_ + g ∨ a.up.def_ = mx := by
    unfold Axis.up
    simp only
    rw [h3, h2, wrap32_of_fits (by omega) (by omega), MIN_eq_min]
    omega
  have hdown : a.down.def_ = a.def_ - g ∨ a.down.def_ = mn := by
    unfold Axis.down
    simp only
    rw [h3, h1, wrap32_of_fits (by omega) (by omega), MAX_eq_max]
    omega
  have hupb : -32768 ≤ a.up.def_ ∧ a.up.def_ ≤ 32767 := by
    unfold Axis.up
    simp only
    rw [h3, h2, wrap32_of_fits (by omega) (by omega), MIN_eq_min]
    omega
  have hdownb : -32768 ≤ a.down.def_ ∧ a.down.def_ ≤ 32767 := by
    unfold Axis.down
    simp only
    rw [h3, h1, wrap32_of_fits (by omega) (by omega), MAX_eq_max]
    omega
  have shift_up : ∀ t : Int, g ∣ a.def_ - t → g ∣ a.def_ + g - t := by
    intro t ht
    have e : a.def_ + g - t = (a.def_ - t) + g := by ring
    rw [e]
    exact dvd_add ht (dvd_refl g)
  have shift_down : ∀ t : Int, g ∣ a.def_ - t → g ∣ a.def_ - g - t := by
    intro t ht
    have e : a.def_ - g - t = (a.def_ - t) - g := by ring
    rw [e]
    exact dvd_sub ht (dvd_refl g)
  refine ⟨⟨h1, h2, h3, hupb.1, hupb.2, ?_⟩, ⟨h1, h2, h3, hdownb.1, hdownb.2, ?_⟩⟩
  · rcases hup with e | e
    · rw [e]
      rcases h6 with h | h | h
      · exact Or.inl (shift_up _ h)
      · exact Or.inr (Or.inl (shift_up _ h))
      · exact Or.inr (Or.inr (shift_up _ h))
    · rw [e, sub_self]
      exact Or.inr (Or.inr (dvd_zero g))
  · rcases hdown with e | e
    · rw [e]
      rcases h6 with h | h | h
      · exact Or.inl (shift_down _ h)
      · exact Or.inr (Or.inl (shift_down _ h))
      · exact Or.inr (Or.inr (shift_down _ h))
    · rw [e, sub_self]
      exact Or.inr (Or.inl (dvd_zero g))

/-- C12, amended. For a present axis whose step was taken from the greatest
common divisor (at least 3 in-range named-instance coordinates, divisor
non-zero and different from the range): every in-range named-instance
coordinate is reached from the default as start-up leaves it (clamp of weight
and width included) by pressing the two keys of the axis, if and only if that
default, or the axis `min`, or the axis `max` differs from the declared default
by a multiple of the step (a press clamped at `min` or `max` lands on the grid
of that bound). For the slant axis the default is the declared one, so the
condition always holds. -/
theorem stops_reachable_iff (m : FT_MM_Var) (face : hb_face_t) (x : AxisName) (idx : Nat)
    (hloc : locate x.tag m.axis 0 = some idx)
    (h3 : 3 ≤ (sampleDistances m idx).length)
    (h0 : gcdAll (sampleDistances m idx) ≠ 0)
    (hr : gcdAll (sampleDistances m idx) ≠
      (axisAt m idx).maximum.toInt - (axisAt m idx).minimum.toInt) :
    ((∀ c ∈ inRange (axisAt m idx).minimum.toInt (axisAt m idx).maximum.toInt (coordsOf m idx),
        ∃ keys : List Nat, (∀ k ∈ keys, k = x.upKey ∨ k = x.downKey) ∧
          (x.get (run (main_init (some m) face) keys)).def_ = c) ↔
      (gcdAll (sampleDistances m idx) ∣
          (x.get (main_init (some m) face)).def_ - (axisAt m idx).def_.toInt ∨
        gcdAll (sampleDistances m idx) ∣
          (axisAt m idx).minimum.toInt - (axisAt m idx).def_.toInt ∨
        gcdAll (sampleDistances m idx) ∣
          (axisAt m idx).maximum.toInt - (axisAt m idx).def_.toInt)) ∧
      (x = AxisName.slnt →
        gcdAll (sampleDistances m idx) ∣
          (x.get (main_init (some m) face)).def_ - (axisAt m idx).def_.toInt) := by
  obtain ⟨hp, hmin, hmax, hstep, hdef, hslnt⟩ := main_init_axis m face x idx hloc
  have hg : (x.get (main_init (some m) face)).step = gcdAll (sampleDistances m idx) := by
    rw [hstep]
    exact decide_step_gcd _ _ _ h3 h0 hr
  have hpos : 0 < gcdAll (sampleDistances m idx) := by
    have := gcdAll_nonneg (sampleDistances m idx)
    omega
  have hle : gcdAll (sampleDistances m idx) ≤ 65535 :=
    gcdAll_le 65535 (by decide) _ (sampleDistances_range m idx)
  have r1 := toInt_range (axisAt m idx).minimum
  have r2 := toInt_range (axisAt m idx).maximum
  have r3 := toInt_range (axisAt m idx).def_
  have hbd : -32768 ≤ (x.get (main_init (some m) face)).def_ ∧
      (x.get (main_init (some m) face)).def_ ≤ 32767 := by
    rcases hdef with h | h | h
    · rw [h]; omega
    · rw [h, MIN_eq_min, MAX_eq_max]; omega
    · rw [h, MIN_eq_min, MAX_eq_max]; omega
  have hcr : ∀ c ∈ inRange (axisAt m idx).minimum.toInt (axisAt m idx).maximum.toInt
      (coordsOf m idx),
      (axisAt m idx).minimum.toInt ≤ c ∧ c ≤ (axisAt m idx).maximum.toInt := by
    intro c hc
    unfold inRange at hc
    simpa using (List.mem_filter.mp hc).2
  have hcd : ∀ c ∈ inRange (axisAt m idx).minimum.toInt (axisAt m idx).maximum.toInt
      (coordsOf m idx), gcdAll (sampleDistances m idx) ∣ c - (axisAt m idx).def_.toInt := by
    intro c hc
    have hm : |c - (axisAt m idx).def_.toInt| ∈ sampleDistances m idx := by
      unfold sampleDistances distances
      exact List.mem_map.mpr ⟨c, hc, rfl⟩
    exact (dvd_abs _ _).mp (gcdAll_dvd _ _ hm)
  refine ⟨⟨?_, ?_⟩, ?_⟩
  · intro hall
    have hne : inRange (axisAt m idx).minimum.toInt (axisAt m idx).maximum.toInt
        (coordsOf m idx) ≠ [] := by
      intro h
      unfold sampleDistances distances at h3
      rw [h] at h3
      simp at h3
    obtain ⟨c, hc⟩ := List.exists_mem_of_ne_nil _ hne
    obtain ⟨keys, _, hreach⟩ := hall c hc
    have hinv := run_axis_inv x _
      (grid_invariant (gcdAll (sampleDistances m idx))
        (x.get (main_init (some m) face)).def_ (axisAt m idx).minimum.toInt
        (axisAt m idx).maximum.toInt hpos hle (by omega) (by omega))
      keys (main_init (some m) face)
      ⟨hmin, hmax, hg, hbd.1, hbd.2, Or.inl (by rw [sub_self]; exact dvd_zero _)⟩
    obtain ⟨_, _, _, _, _, h6⟩ := hinv
    rw [hreach] at h6
    have hd := hcd c hc
    have flip : ∀ t : Int, gcdAll (sampleDistances m idx) ∣ c - t →
        gcdAll (sampleDistances m idx) ∣ t - (axisAt m idx).def_.toInt := by
      intro t ht
      have e : t - (axisAt m idx).def_.toInt = (c - (axisAt m idx).def_.toInt) - (c - t) := by
        ring
      rw [e]
      exact dvd_sub hd ht
    rcases h6 with h | h | h
    · exact Or.inl (flip _ h)
    · exact Or.inr (Or.inl (flip _ h))
    · exact Or.inr (Or.inr (flip _ h))
  · intro hcond c hc
    have hcr2 := hcr c hc
    have hd := hcd c hc
    have via_default : gcdAll (sampleDistances m idx) ∣
        (x.get (main_init (some m) face)).def_ - (axisAt m idx).def_.toInt →
        ∃ keys : List Nat, (∀ k ∈ keys, k = x.upKey ∨ k = x.downKey) ∧
          (x.get (run (main_init (some m) face) keys)).def_ = c :=
      fun h => stops_reachable m face x idx c hloc h3 h0 hr hc (Or.inr h)
    have within : (x.get (main_init (some m) face)).def_ ≠ (axisAt m idx).def_.toInt →
        (axisAt m idx).minimum.toInt ≤ (x.get (main_init (some m) face)).def_ ∧
          (x.get (main_init (some m) face)).def_ ≤ (axisAt m idx).maximum.toInt := by
      intro hne
      rcases hdef with h | h | h
      · exact absurd h hne
      · rw [h, MIN_eq_min, MAX_eq_max]; omega
      · rw [h, MIN_eq_min, MAX_eq_max]; omega
    by_cases hsame : (x.get (main_init (some m) face)).def_ = (axisAt m idx).def_.toInt
    · exact via_default (by rw [hsame, sub_self]; exact dvd_zero _)
    · have hw := within hsame
      rcases hcond with h | h | h
      · exact via_default h
      · apply reach_via_min x (main_init (some m) face) c hp (by rw [hg]; exact hpos)
          (by rw [hg]; exact hle) (by rw [hmin, hmax]; omega)
        · rw [hg, hmin]
          have e : c - (axisAt m idx).minimum.toInt =
              (c - (axisAt m idx).def_.toInt) -
                ((axisAt m idx).minimum.toInt - (axisAt m idx).def_.toInt) := by ring
          rw [e]
          exact dvd_sub hd h
        · rw [hmin, hmax]; exact hcr2
      · apply reach_via_max x (main_init (some m) face) c hp (by rw [hg]; exact hpos)
          (by rw [hg]; exact hle) (by rw [hmin, hmax]; omega)
        · rw [hg, hmax]
          have e : c - (axisAt m idx).maximum.toInt =
              (c - (axisAt m idx).def_.toInt) -
                ((axisAt m idx).maximum.toInt - (axisAt m idx).def_.toInt) := by ring
          rw [e]
          exact dvd_sub hd h
        · rw [hmin, hmax]; exact hcr2
  · intro hx
    rw [hslnt hx, sub_self]
    exact dvd_zero _

/-- C12 amended, on the font with weight 300..900, declared default 300 and
named instances 300, 500, 700, 900: start-up puts the default at 400, off the
grid of step 200, yet `min` is the declared default, so every named instance
is reached (A clamps to 300, then Q gives 500, 700, 900). -/
theorem stops_reachable_iff_witness :
    locate AxisName.wght.tag font_light.axis 0 = some 0 ∧
      3 ≤ (sampleDistances font_light 0).length ∧
      gcdAll (sampleDistances font_light 0) = 200 ∧
      (axisAt font_light 0).maximum.toInt - (axisAt font_light 0).minimum.toInt = 600 ∧
      ¬ (200 : Int) ∣ 400 - (axisAt font_light 0).def_.toInt ∧
      ∀ c ∈ inRange (axisAt font_light 0).minimum.toInt (axisAt font_light 0).maximum.toInt
          (coordsOf font_light 0),
        ∃ keys : List Nat, (∀ k ∈ keys, k = AxisName.wght.upKey ∨ k = AxisName.wght.downKey) ∧
          (AxisName.wght.get (run (main_init (some font_light) face_ss01) keys)).def_ = c :=
  ⟨by decide, by decide, by decide, by decide, by decide,
    (stops_reachable_iff font_light face_ss01 AxisName.wght 0 (by decide) (by decide)
      (by decide) (by decide)).1.mpr (Or.inr (Or.inl (by decide)))⟩

end VF
